import Mathlib

/-!
Verification of the Markdown Maker content-extraction pipeline
(`src/main.js`). The JavaScript source is shallowly embedded: HTML
documents are modelled as a first-child / next-sibling tree of elements
and text nodes, strings are Lean `String`s manipulated through their
character lists, and the external collaborators (the article-extractor
library, the Turndown renderer, the HTML parser of the fetch boundary)
appear as function parameters. JS truthiness of strings ("" is falsy)
and of optional numbers (undefined/0 are falsy) is made explicit at each
use site.
-/

set_option maxRecDepth 20000

/-! ## Characters and basic list utilities -/

/-- The ASCII whitespace characters recognised by the embedding of
JavaScript's `trim` and `\s+` (the Unicode additions are irrelevant to
the repository's string literals). -/
def isWsChar (c : Char) : Bool :=
  c = ' ' || c = '\t' || c = '\n' || c = '\r' || c = '\x0b' || c = '\x0c'

/-- Embedding of JavaScript `String.prototype.trim` on character lists. -/
def jsTrimL (l : List Char) : List Char :=
  ((l.dropWhile isWsChar).reverse.dropWhile isWsChar).reverse

/-- Embedding of JavaScript `String.prototype.trim`. -/
def jsTrim (s : String) : String := ⟨jsTrimL s.data⟩

/-- Embedding of JavaScript `String.prototype.split(',')`:
`""` splits to `[""]`, separators are single commas. -/
def splitCommaL : List Char → List (List Char)
  | [] => [[]]
  | c :: rest =>
    if c = ',' then [] :: splitCommaL rest
    else
      match splitCommaL rest with
      | [] => [[c]]
      | p :: ps => (c :: p) :: ps

/-- Embedding of JavaScript `String.prototype.includes` (substring test). -/
def containsSubL : List Char → List Char → Bool
  | l@(_ :: rest), sub => sub.isPrefixOf l || containsSubL rest sub
  | [], sub => sub.isEmpty

/-- Lower-casing a character list (JavaScript `toLowerCase` on ASCII). -/
def lowerL (l : List Char) : List Char := l.map Char.toLower

/-- Whitespace-separated tokens, accumulator-based so that it reduces by
`decide`.  `wsTokensAux l acc` carries the current (reversed) token. -/
def wsTokensAux : List Char → List Char → List (List Char)
  | [], cur => if cur = [] then [] else [cur.reverse]
  | c :: cs, cur =>
    if isWsChar c then
      if cur = [] then wsTokensAux cs [] else cur.reverse :: wsTokensAux cs []
    else wsTokensAux cs (c :: cur)

/-- The whitespace-separated tokens of a character list (the token view
of JavaScript `split(/\s+/)` on a trimmed string and of the
class-attribute token list used by class selectors). -/
def wsTokens (l : List Char) : List (List Char) := wsTokensAux l []

/-- Join tokens with a single space: the value of
`text.replace(/\s+/g, ' ').trim()` is `joinSpace (wsTokens text)`. -/
def joinSpace : List (List Char) → List Char
  | [] => []
  | [t] => t
  | t :: ts => t ++ ' ' :: joinSpace ts

/-- Join srcset entries with `", "` as in the source's
`normalized.join(', ')`. -/
def joinCommaSpace : List (List Char) → List Char
  | [] => []
  | [q] => q
  | q :: qs => q ++ ',' :: ' ' :: joinCommaSpace qs

/-! ## The URL resolver model

`toAbsolute` calls the WHATWG `URL` constructor, `new URL(trimmed,
baseUrl)`.  That constructor is a platform builtin, not repository code.
Modelled from the spec: "resolve relative references against baseUrl"
(§4.3 step 3) — a value carrying its own scheme is absolute and kept
verbatim, a `//`-value takes the base's scheme, a `/`-value the base's
origin, any other value the base's directory; parsing fails (the
constructor throws) when neither the value nor the base carries a
scheme.  The reported protocol is the lower-cased scheme with a trailing
colon, as in the browser API.  Percent-encoding and dot-segment
normalisation are not modelled. -/

/-- Characters allowed in a URL scheme after the initial letter. -/
def isSchemeChar (c : Char) : Bool :=
  c.isAlpha || c.isDigit || c = '+' || c = '-' || c = '.'

/-- Split `pre ++ ':' :: rest` into `(pre, rest)` when `pre` is a
well-formed scheme (nonempty, initial letter, scheme characters);
`none` when the string does not start with a scheme. -/
def schemeSplit (l : List Char) : Option (List Char × List Char) :=
  match l with
  | [] => none
  | c :: _ =>
    if c.isAlpha then
      match l.drop (l.takeWhile isSchemeChar).length with
      | ':' :: rest => some (l.takeWhile isSchemeChar, rest)
      | _ => none
    else none

/-- The result of URL resolution: the protocol (lower-cased scheme plus
`":"`, as reported by the `URL` API) and the serialised absolute URL. -/
structure ResolvedUrl where
  protocol : List Char
  href : List Char
deriving DecidableEq

/-- Origin and path of a base URL that starts with a scheme:
`"sch://host/a/b"` gives origin `"sch://host"` and path `"/a/b"`. -/
def originAndPath (brest : List Char) : List Char × List Char :=
  match brest with
  | '/' :: '/' :: hp =>
    let host := hp.takeWhile (fun c => !(c = '/' || c = '?' || c = '#'))
    ('/' :: '/' :: host, hp.drop host.length)
  | _ => ([], brest)

/-- The prefix of a path up to and including its last `'/'`, `none`
when the path contains no slash. -/
def upToLastSlash : List Char → Option (List Char)
  | [] => none
  | c :: cs =>
    match upToLastSlash cs with
    | some p => some (c :: p)
    | none => if c = '/' then some ['/'] else none

/-- Modelled from the spec: the WHATWG `new URL(value, base)` used by
`toAbsolute` (a platform builtin absent from the repository), per §4.3
"resolve relative references against baseUrl". -/
def urlResolveL (value base : List Char) : Option ResolvedUrl :=
  match schemeSplit value with
  | some (pre, _) => some ⟨lowerL pre ++ [':'], value⟩
  | none =>
    match schemeSplit base with
    | none => none
    | some (bpre, brest) =>
      match value with
      | '/' :: '/' :: _ => some ⟨lowerL bpre ++ [':'], bpre ++ ':' :: value⟩
      | '/' :: _ =>
        some ⟨lowerL bpre ++ [':'], bpre ++ ':' :: ((originAndPath brest).1 ++ value)⟩
      | _ =>
        some ⟨lowerL bpre ++ [':'],
          bpre ++ ':' :: ((originAndPath brest).1 ++
            (match upToLastSlash (originAndPath brest).2 with
             | some p => p
             | none => ['/']) ++ value)⟩

/-! ## `toAbsolute` (src/main.js lines 40-54) -/

/-- The rejected prefixes of `toAbsolute`:
`['#', 'mailto:', 'javascript:', 'tel:']`. -/
def urlPrefixes : List (List Char) :=
  ["#".data, "mailto:".data, "javascript:".data, "tel:".data]

/-- Embedding of `toAbsolute` (src/main.js lines 40-54): `none` models
the JavaScript `null` returns (empty value, rejected prefix, constructor
throw, non-http/https protocol); `some href` models the returned
`resolved.href`. -/
def toAbsoluteL (base : String) (value : List Char) : Option (List Char) :=
  if value = [] then none
  else if jsTrimL value = [] ||
      urlPrefixes.any (fun p => p.isPrefixOf (jsTrimL value)) then none
  else
    match urlResolveL (jsTrimL value) base.data with
    | none => none
    | some r =>
      if r.protocol = "http:".data || r.protocol = "https:".data then some r.href
      else none

/-- String-level `toAbsolute`, keeping the source's name. -/
def toAbsolute (base value : String) : Option String :=
  (toAbsoluteL base value.data).map (⟨·⟩)

/-! ## srcset handling (src/main.js lines 75-88) -/

/-- Embedding of `part.split(/\s+/, 2)` on a trimmed nonempty srcset
entry: the URL token and, when present, the first descriptor token
(JavaScript's limit-2 split discards any further tokens). -/
def wsSplit2 (p : List Char) : List Char × Option (List Char) :=
  (p.takeWhile (fun c => !isWsChar c),
   if (p.drop (p.takeWhile (fun c => !isWsChar c)).length).dropWhile isWsChar = []
   then none
   else some (((p.drop (p.takeWhile (fun c => !isWsChar c)).length).dropWhile
     isWsChar).takeWhile (fun c => !isWsChar c)))

/-- The trimmed nonempty comma-separated entries of a srcset value:
`srcset.split(',').map(part => part.trim()).filter(Boolean)`. -/
def srcsetPartsL (v : List Char) : List (List Char) :=
  ((splitCommaL v).map jsTrimL).filter (· ≠ [])

/-- One entry of the srcset transform (the body of the source's
`parts.map(...)` composed with the `.filter(Boolean)` drop of rejected
entries): resolve the URL token, reattach the descriptor. -/
def srcsetEntry (base : String) (p : List Char) : Option (List Char) :=
  match toAbsoluteL base (wsSplit2 p).1 with
  | none => none
  | some abs =>
    some (match (wsSplit2 p).2 with
      | some d => abs ++ ' ' :: d
      | none => abs)

/-- Embedding of the srcset transform passed to `absolutizeAttr`
(src/main.js lines 75-88): resolve each entry's URL, reattach its
descriptor, drop entries whose URL is rejected, join with `", "`. -/
def srcsetTransformL (base : String) (v : List Char) : List Char :=
  joinCommaSpace ((srcsetPartsL v).filterMap (srcsetEntry base))

/-- `srcsetEntry` under the accepted-entry hypothesis, as a total
rebuild function. -/
def rebuildEntry (base : String) (p : List Char) : List Char :=
  match (wsSplit2 p).2 with
  | some d => (toAbsoluteL base (wsSplit2 p).1).getD [] ++ ' ' :: d
  | none => (toAbsoluteL base (wsSplit2 p).1).getD []

/-- The value actually stored for an `href`/`src` attribute: the
`absolutizeAttr` body with `transform` absent — keep the old value when
`toAbsolute` returns `null` (or, vacuously, an empty string, since
`if (nextValue)` tests truthiness). -/
def applyAbs (base v : String) : String :=
  match toAbsoluteL base v.data with
  | some nv => if nv = [] then v else ⟨nv⟩
  | none => v

/-- The value actually stored for a `srcset` attribute: the
`absolutizeAttr` body with the srcset transform — the attribute is
skipped when empty (`if (!value) return`) and kept unchanged when the
transform returns a falsy (empty) string. -/
def applySrcset (base v : String) : String :=
  if v.data = [] then v
  else if srcsetTransformL base v.data = [] then v
  else ⟨srcsetTransformL base v.data⟩

/-! ## The HTML tree -/

/-- First-child / next-sibling encoding of an HTML forest: `nil` is the
empty forest, `text s rest` a text node followed by its siblings,
`elem tag attrs children rest` an element followed by its siblings.
This is the parsed-DOM value type the cheerio calls operate on. -/
inductive HTree where
  | nil : HTree
  | text : String → HTree → HTree
  | elem : String → List (String × String) → HTree → HTree → HTree
deriving DecidableEq

/-- First attribute value for a name, as `$(element).attr(name)`. -/
def getAttr (attrs : List (String × String)) (name : String) : Option String :=
  (attrs.find? (fun p => p.1 = name)).map (·.2)

/-- Tags removed by `$('script, style, noscript, iframe, template')`
(line 14) and the tag-name part of `noiseSelectors` (lines 16-38). -/
def noiseTags : List String :=
  ["script", "style", "noscript", "iframe", "template",
   "nav", "header", "footer", "aside"]

/-- The class names of `noiseSelectors` (lines 16-38). -/
def noiseClasses : List String :=
  ["sidebar", "advertisement", "ads", "ad", "promo", "newsletter",
   "subscribe", "share", "social", "breadcrumb", "breadcrumbs",
   "comment", "comments", "cookie", "modal", "popup"]

/-- Whether an element is removed by the two `$(...).remove()` calls:
its tag is denylisted or its class-attribute token list contains a
denylisted class. -/
def isNoise (tag : String) (attrs : List (String × String)) : Bool :=
  noiseTags.contains tag ||
    noiseClasses.any (fun c =>
      (wsTokens ((getAttr attrs "class").getD "").data).contains c.data)

/-- Tags whose `href` is absolutized: `a[href]`, `link[href]`. -/
def hrefTags : List String := ["a", "link"]

/-- Tags whose `src` is absolutized:
`img[src]`, `source[src]`, `video[src]`, `audio[src]`, `track[src]`. -/
def srcTags : List String := ["img", "source", "video", "audio", "track"]

/-- Tags whose `srcset` is rewritten: `img[srcset]`, `source[srcset]`. -/
def srcsetTags : List String := ["img", "source"]

/-- Per-attribute effect of the seven `absolutizeAttr` calls on one
element (they touch disjoint attribute names, so the sequential calls
equal one pass over the attribute list). -/
def rewriteAttr (base tag : String) (p : String × String) : String × String :=
  if p.1 = "href" && hrefTags.contains tag then (p.1, applyAbs base p.2)
  else if p.1 = "src" && srcTags.contains tag then (p.1, applyAbs base p.2)
  else if p.1 = "srcset" && srcsetTags.contains tag then (p.1, applySrcset base p.2)
  else p

/-- Embedding of `normalizeHtmlForMarkdown` (src/main.js lines 10-92) on
the parsed tree: drop denylisted elements (with their subtrees, as
`.remove()` does), absolutize the URL-bearing attributes of the
survivors.  The final `$('body').html()` serialisation step is the
identity in the tree view: the input forest stands for the body's
content. -/
def normalizeHtmlForMarkdown (baseUrl : String) : HTree → HTree
  | .nil => .nil
  | .text s rest => .text s (normalizeHtmlForMarkdown baseUrl rest)
  | .elem tag attrs children rest =>
    if isNoise tag attrs then normalizeHtmlForMarkdown baseUrl rest
    else
      .elem tag (attrs.map (rewriteAttr baseUrl tag))
        (normalizeHtmlForMarkdown baseUrl children)
        (normalizeHtmlForMarkdown baseUrl rest)

/-! ## Main-content selection (src/main.js lines 94-136) -/

/-- The selector shapes occurring in `CONTENT_SELECTORS`. -/
inductive Selector where
  | tagSel (t : String)
  | attrSel (name val : String)
  | classSel (c : String)
  | idSel (i : String)
deriving DecidableEq

/-- `CONTENT_SELECTORS` (src/main.js lines 94-109), in priority order. -/
def CONTENT_SELECTORS : List Selector :=
  [.tagSel "article", .tagSel "main", .attrSel "role" "main",
   .classSel "main-content", .classSel "content", .idSel "content",
   .classSel "post-content", .classSel "entry-content",
   .classSel "article-content", .classSel "article-body",
   .classSel "blog-post", .classSel "markdown-body",
   .classSel "docs-main", .classSel "documentation"]

/-- Whether an element matches a selector. -/
def matchesSel : Selector → String → List (String × String) → Bool
  | .tagSel t, tag, _ => tag = t
  | .attrSel n v, _, attrs => getAttr attrs n = some v
  | .classSel c, _, attrs =>
    (wsTokens ((getAttr attrs "class").getD "").data).contains c.data
  | .idSel i, _, attrs => getAttr attrs "id" = some i

/-- An element as handed to the `$(selector).each` callback: its tag,
attributes and children. -/
abbrev Elem := String × List (String × String) × HTree

/-- All elements of the forest matching a selector, in document
(pre-order) order, as `$(selector).each` iterates them. -/
def matchesOf (sel : Selector) : HTree → List Elem
  | .nil => []
  | .text _ rest => matchesOf sel rest
  | .elem tag attrs children rest =>
    (if matchesSel sel tag attrs then [(tag, attrs, children)] else []) ++
      matchesOf sel children ++ matchesOf sel rest

/-- Concatenated text content of a forest, as `$(el).text()`. -/
def textOf : HTree → List Char
  | .nil => []
  | .text s rest => s.data ++ textOf rest
  | .elem _ _ children rest => textOf children ++ textOf rest

/-- `getLength` (src/main.js lines 113-116): length of the element's
text with whitespace runs collapsed to single spaces and trimmed
(`text.replace(/\s+/g, ' ').trim().length`). -/
def visLenOf (children : HTree) : Nat :=
  (joinSpace (wsTokens (textOf children))).length

/-- One `$(selector).each` pass (src/main.js lines 122-128): thread the
`(bestHtml, bestLength)` state over the matches, replacing it when a
match's visible length beats the current best and exceeds 120.  The
best element's children stand for the stored `$(el).html()` string
(nonempty exactly when the guard `len > 120` can hold). -/
def scanTier (els : List Elem) (st : Option Elem × Nat) : Option Elem × Nat :=
  els.foldl (fun b el =>
    if b.2 < visLenOf el.2.2 ∧ 120 < visLenOf el.2.2 then (some el, visLenOf el.2.2)
    else b) st

/-- The selector loop (src/main.js lines 121-130): scan tiers in order,
stopping after the first tier that set `bestHtml`. -/
def pickLoop (f : HTree) : List Selector → Option Elem × Nat → Option Elem × Nat
  | [], st => st
  | sel :: rest, st =>
    let st' := scanTier (matchesOf sel f) st
    if st'.1.isSome then st' else pickLoop f rest st'

/-- The winning element of the content-selector scan, if any. -/
def pickBest (f : HTree) : Option Elem :=
  (pickLoop f CONTENT_SELECTORS (none, 0)).1

/-- `$('title').first().text().trim() || null` (src/main.js line 132). -/
def titleFromDom (f : HTree) : Option String :=
  match matchesOf (.tagSel "title") f with
  | [] => none
  | el :: _ =>
    let t := jsTrimL (textOf el.2.2)
    if t = [] then none else some ⟨t⟩

/-- Embedding of `pickMainContent` (src/main.js lines 111-136): the
winner's inner content, else the full body forest (the
`bestHtml || $('body').html() || $.root().html() || ''` chain — in the
tree view the input forest is the body content). -/
def pickMainContent (f : HTree) : HTree × Option String :=
  (match pickBest f with
   | some el => el.2.2
   | none => f,
   titleFromDom f)

/-! ## Block detection (src/main.js lines 138-155) -/

/-- `blockSignals` (src/main.js lines 143-152). -/
def blockSignals : List String :=
  ["access denied", "forbidden", "unauthorized", "captcha",
   "verify you are human", "bot detection", "temporary rate limit",
   "cloudflare"]

/-- Embedding of `isBlockedResponse` (src/main.js lines 138-155).
`statusCode` is optional (`undefined` and `0` are falsy, encoded by
`getD 0`, so `statusCode && statusCode >= 400` is `400 ≤ getD 0`);
`body` is optional and `!body` is true for `undefined` and `""`. -/
def isBlockedResponse (statusCode : Option Nat) (body : Option String) : Bool :=
  if 400 ≤ statusCode.getD 0 then true
  else if body.getD "" = "" then true
  else
    blockSignals.any (fun signal =>
      containsSubL (lowerL ((body.getD "").data.take 2000)) signal.data)

/-! ## Markdown assembly (src/main.js lines 157-182) -/

/-- A successful article-extractor result with truthy content: the
boundary `extractFromHtml` is external (§4.5), so the pipeline passes it
as a function; `none` covers a throw, a `null` result and a result
whose `content` is falsy, all of which the source treats alike. -/
structure Extracted where
  title : String
  content : HTree
deriving DecidableEq

/-- JavaScript `a || b` on strings ("" is falsy). -/
def strOr (a b : String) : String := if a = "" then b else a

/-- Embedding of `buildMarkdownFromHtml` (src/main.js lines 157-182).
`extract` stands for the external article extractor, `td` for the
configured Turndown service, `html` for the fetched page (parsed), and
`titleFallback` keeps its source default `'Untitled'`.  Returns
`(markdown, title)`. -/
def buildMarkdownFromHtml (extract : HTree → Option Extracted) (td : HTree → String)
    (html : HTree) (url : String) (titleFallback : String := "Untitled") :
    String × String :=
  match extract html with
  | some e =>
    let contentMarkdown := td (normalizeHtmlForMarkdown url e.content)
    let title := strOr e.title (strOr titleFallback "Untitled")
    ("# " ++ title ++ "\n\n**URL Source:** " ++ url ++ "\n\n---\n\n" ++ contentMarkdown,
     title)
  | none =>
    let pr := pickMainContent html
    let contentMarkdown :=
      td (normalizeHtmlForMarkdown url (if pr.1 = .nil then html else pr.1))
    let title := strOr (pr.2.getD "") (strOr titleFallback "Untitled")
    ("# " ++ title ++ "\n\n**URL Source:** " ++ url ++ "\n\n---\n\n" ++ contentMarkdown,
     title)

/-! ## The per-URL pipeline (src/main.js lines 248-347) -/

/-- Outcome of the fast `gotScraping` fetch: it threw (network error or
timeout), or returned a status code and body. -/
inductive FastOutcome where
  | threw : FastOutcome
  | ok : Option Nat → Option String → FastOutcome
deriving DecidableEq

/-- Outcome of the Playwright fallback: navigation or serialisation
threw with a message, or produced a page title and rendered HTML. -/
inductive RenderedOutcome where
  | threw : String → RenderedOutcome
  | ok : String → HTree → RenderedOutcome
deriving DecidableEq

/-- One dataset record as pushed by `Actor.pushData` (timestamps, which
are wall-clock effects, are not modelled). -/
structure PageRecord where
  url : String
  title : String
  markdown : String
  success : Bool
  errorMessage : Option String
deriving DecidableEq

/-- The fast-path acceptance test (src/main.js line 274):
`!isBlockedResponse(statusCode, body) && body && body.length > 200`. -/
def fastAccepted : FastOutcome → Bool
  | .threw => false
  | .ok st body =>
    !isBlockedResponse st body && (body.getD "" != "") &&
      decide (200 < (body.getD "").length)

/-- How many times the Playwright fallback block (src/main.js lines
285-304) runs for a URL: once exactly when the fast path left `result`
null. -/
def renderedCount (f : FastOutcome) : Nat :=
  if fastAccepted f then 0 else 1

/-- Embedding of the crawler `requestHandler` (src/main.js lines
254-340) for one URL: returns the records pushed for it.  `parse` stands
for the cheerio/extractor parsing of the fast body (string HTML to
tree); a `buildMarkdownFromHtml` failure is not modelled (`td` and
`extract` are total), so the error record arises exactly when the fast
path is rejected and the rendered fetch throws. -/
def requestHandler (url : String) (parse : String → HTree) (td : HTree → String)
    (extract : HTree → Option Extracted) (fast : FastOutcome)
    (rendered : RenderedOutcome) : List PageRecord :=
  let fastResult : Option (String × String) :=
    match fast with
    | .threw => none
    | .ok st body =>
      if fastAccepted (.ok st body) then
        some (buildMarkdownFromHtml extract td (parse (body.getD "")) url)
      else none
  match fastResult with
  | some r => [⟨url, strOr r.2 "Untitled", r.1, true, none⟩]
  | none =>
    match rendered with
    | .ok title html =>
      let r := buildMarkdownFromHtml extract td html url title
      [⟨url, strOr r.2 "Untitled", r.1, true, none⟩]
    | .threw msg =>
      [⟨url, "Error",
        "# Error Processing Page\n\n**URL:** " ++ url ++ "\n\n**Error:** " ++ msg,
        false, some msg⟩]

/-! ## Predicates used by the claim statements -/

/-- The base URL parses with an http/https scheme (the situation of
every real pipeline run, where the base is the request URL). -/
def baseValidB (base : String) : Bool :=
  match schemeSplit base.data with
  | some (p, _) => lowerL p = "http".data || lowerL p = "https".data
  | none => false

/-- The string is an absolute URL whose scheme is http or https
(case-insensitively). -/
def isAbsHttpB (l : List Char) : Bool :=
  match schemeSplit l with
  | some (p, _) => lowerL p = "http".data || lowerL p = "https".data
  | none => false

/-- The attribute value is a relative reference once trimmed: nonempty,
not one of the rejected prefixes, and carrying no scheme of its own. -/
def isRelRefB (v : String) : Bool :=
  !(jsTrimL v.data).isEmpty &&
    !(urlPrefixes.any (fun p => p.isPrefixOf (jsTrimL v.data))) &&
    (schemeSplit (jsTrimL v.data)).isNone

/-- The (tag, attribute-name) pairs whose values `absolutizeAttr`
rewrites through `toAbsolute`. -/
def hrefSrcHandled (tag name : String) : Bool :=
  (name = "href" && hrefTags.contains tag) || (name = "src" && srcTags.contains tag)

/-- `P` holds of every element of the forest. -/
def allElems (P : String → List (String × String) → Prop) : HTree → Prop
  | .nil => True
  | .text _ rest => allElems P rest
  | .elem tag attrs children rest => P tag attrs ∧ allElems P children ∧ allElems P rest

/-- A resolved srcset URL is well-behaved: nonempty and free of
whitespace and commas (real WHATWG hrefs percent-encode whitespace; the
comma-freedom is the condition srcset re-splitting needs). -/
def goodAbs (o : Option (List Char)) : Bool :=
  match o with
  | some h => !h.isEmpty && h.all (fun c => !isWsChar c && !(c = ','))
  | none => false

/-- Every srcset entry of the value whose URL `toAbsolute` accepts
resolves to a whitespace- and comma-free URL. -/
def safeValB (base : String) (v : String) : Bool :=
  (srcsetPartsL v.data).all (fun p =>
    match toAbsoluteL base (wsSplit2 p).1 with
    | some h => h.all (fun c => !isWsChar c && !(c = ','))
    | none => true)

/-- `safeValB` holds of every srcset attribute the normalizer rewrites
anywhere in the forest. -/
def treeSafeB (base : String) : HTree → Bool
  | .nil => true
  | .text _ rest => treeSafeB base rest
  | .elem tag attrs children rest =>
    attrs.all (fun pr =>
        !(pr.1 = "srcset" && srcsetTags.contains tag) || safeValB base pr.2) &&
      treeSafeB base children && treeSafeB base rest

/-! ## Concrete documents used in counterexamples and witnesses -/

/-- A page with an `<article>` of 50 visible characters and a
`.content` div of 300 visible characters (§8's selector example). -/
def exPage : HTree :=
  .elem "article" [] (.text ⟨List.replicate 50 'a'⟩ .nil)
    (.elem "div" [("class", "content")] (.text ⟨List.replicate 300 'b'⟩ .nil) .nil)

/-- The `.content` div of `exPage`, as an `Elem`. -/
def exContentDiv : Elem :=
  ("div", [("class", "content")], .text ⟨List.replicate 300 'b'⟩ .nil)

/-- An element whose `src` the normalizer does not handle. -/
def embedDoc : HTree := .elem "embed" [("src", "a.png")] .nil .nil

/-- A base URL whose directory contains a comma. -/
def commaBase : String := "https://e.com/x,y/"

/-- An image whose srcset resolves to a URL containing a comma. -/
def commaDoc : HTree := .elem "img" [("srcset", "a.png 1x")] .nil .nil

/-! ## C4 — Block Detector classification -/

/-- C4: for every status code and body, `isBlockedResponse` returns
true when the status code is ≥ 400 or the body is absent/empty, returns
true when a block-signal phrase occurs case-insensitively in the first
2000 characters of the body, and returns false otherwise; in particular
status 404 is blocked, status 200 with "CAPTCHA" in the first 2000
characters is blocked, and status 200 with a 500-character body free of
block phrases is not blocked. -/
theorem isBlockedResponse_spec : ∀ (st : Option Nat) (body : Option String),
    (400 ≤ st.getD 0 → isBlockedResponse st body = true) ∧
    (body.getD "" = "" → isBlockedResponse st body = true) ∧
    (∀ b, body = some b →
      (∃ sig ∈ blockSignals, containsSubL (lowerL (b.data.take 2000)) sig.data = true) →
      isBlockedResponse st body = true) ∧
    (st.getD 0 < 400 → ∀ b, body = some b → b ≠ "" →
      (∀ sig ∈ blockSignals, containsSubL (lowerL (b.data.take 2000)) sig.data = false) →
      isBlockedResponse st body = false) ∧
    isBlockedResponse (some 404) (some "<html>not found</html>") = true ∧
    isBlockedResponse (some 200) (some "Complete the CAPTCHA to continue") = true ∧
    isBlockedResponse (some 200) (some ⟨List.replicate 500 'a'⟩) = false := by
  intro st body
  refine ⟨?_, ?_, ?_, ?_, by decide, by decide, by decide⟩
  · intro h
    simp [isBlockedResponse, h]
  · intro h
    simp only [isBlockedResponse, h]
    split <;> simp
  · rintro b rfl hsig
    simp only [isBlockedResponse]
    split
    · rfl
    · split
      · rfl
      · simp only [Option.getD_some]
        rw [List.any_eq_true]
        obtain ⟨sig, hmem, hc⟩ := hsig
        exact ⟨sig, hmem, hc⟩
  · rintro hlt b rfl hne hall
    simp only [isBlockedResponse, Option.getD_some]
    rw [if_neg (by omega), if_neg (by simpa using hne)]
    rw [List.any_eq_false]
    intro sig hmem
    simp [hall sig hmem]

/-- Witness for C4 at a concrete input. -/
theorem isBlockedResponse_spec_witness :
    isBlockedResponse (some 404) (some "x") = true :=
  (isBlockedResponse_spec (some 404) (some "x")).1 (by decide)

/-! ## C10 — absent or zero status alone never blocks -/

/-- C10: a nonempty body free of block phrases in its first 2000
characters is not blocked when the status code is absent or zero — the
status test only applies to a truthy status code. -/
theorem isBlockedResponse_no_status : ∀ (b : String), b ≠ "" →
    blockSignals.all
      (fun sig => !containsSubL (lowerL (b.data.take 2000)) sig.data) = true →
    isBlockedResponse none (some b) = false ∧
      isBlockedResponse (some 0) (some b) = false := by
  intro b hne hall
  rw [List.all_eq_true] at hall
  constructor <;>
  · simp only [isBlockedResponse, Option.getD_some, Option.getD_none]
    rw [if_neg (by omega), if_neg (by simpa using hne)]
    rw [List.any_eq_false]
    intro sig hmem
    simpa using hall sig hmem

/-- Witness for C10 at a concrete input. -/
theorem isBlockedResponse_no_status_witness :
    isBlockedResponse none (some "hello world") = false ∧
      isBlockedResponse (some 0) (some "hello world") = false :=
  isBlockedResponse_no_status "hello world" (by decide) (by decide)

/-! ## C1 — fast-path acceptance and rendered fallback -/

/-- C1 counterexample: a fast fetch returning status 200 with a
150-character unblocked body — the Block Detector accepts it, the fast
strategy did not throw, yet the rendered strategy is still invoked,
because line 274 additionally requires `body.length > 200`. -/
theorem renderedCount_counterexample :
    isBlockedResponse (some 200) (some ⟨List.replicate 150 'a'⟩) = false ∧
      renderedCount (.ok (some 200) (some ⟨List.replicate 150 'a'⟩)) = 1 := by
  decide

/-- C1 amended: the rendered strategy runs exactly once iff the fast
strategy threw, the Block Detector rejected its result, or the body was
absent/empty or of length at most 200; a 403 status always triggers it
exactly once, and an unblocked response with a body longer than 200
characters suppresses it. -/
theorem renderedCount_policy : ∀ f : FastOutcome,
    (renderedCount f = 1 ↔ f = .threw ∨ ∃ st b, f = FastOutcome.ok st b ∧
        (isBlockedResponse st b = true ∨ b.getD "" = "" ∨ (b.getD "").length ≤ 200)) ∧
    (∀ st b, f = FastOutcome.ok st b → 400 ≤ st.getD 0 → renderedCount f = 1) ∧
    (∀ st b, f = FastOutcome.ok st b → isBlockedResponse st b = false →
      200 < (b.getD "").length → renderedCount f = 0) := by
  intro f
  refine ⟨?_, ?_, ?_⟩
  · cases f with
    | threw => simp [renderedCount, fastAccepted]
    | ok st b =>
      simp only [renderedCount, fastAccepted]
      constructor
      · intro h
        refine Or.inr ⟨st, b, rfl, ?_⟩
        by_contra hc
        push_neg at hc
        obtain ⟨h1, h2, h3⟩ := hc
        rw [if_pos ?_] at h
        · exact absurd h (by omega)
        · simp only [Bool.and_eq_true, Bool.not_eq_true', bne_iff_ne, decide_eq_true_eq]
          refine ⟨⟨?_, h2⟩, by omega⟩
          cases hb : isBlockedResponse st b
          · rfl
          · exact absurd hb h1
      · rintro (h | ⟨st', b', heq, hrej⟩)
        · exact absurd h (by simp)
        · obtain ⟨rfl, rfl⟩ : st = st' ∧ b = b' := by
            injection heq with h1 h2; exact ⟨h1, h2⟩
          rw [if_neg ?_]
          simp only [Bool.and_eq_true, Bool.not_eq_true', bne_iff_ne, decide_eq_true_eq]
          rintro ⟨⟨h1, h2⟩, h3⟩
          rcases hrej with h | h | h
          · rw [h1] at h; exact Bool.false_ne_true h
          · exact h2 h
          · omega
  · rintro st b rfl hge
    have hblocked : isBlockedResponse st b = true := by
      simp [isBlockedResponse, hge]
    simp [renderedCount, fastAccepted, hblocked]
  · rintro st b rfl hnb hlen
    have hne : b.getD "" ≠ "" := by
      intro h
      rw [show isBlockedResponse st b = true from ?_] at hnb
      · simp at hnb
      · simp only [isBlockedResponse, h]
        split <;> simp
    simp [renderedCount, fastAccepted, hnb, hne, hlen]

/-- Witness for the amended C1 at a concrete input: status 403 invokes
the rendered strategy exactly once. -/
theorem renderedCount_policy_witness :
    renderedCount (.ok (some 403) (some "forbidden page")) = 1 :=
  (renderedCount_policy (.ok (some 403) (some "forbidden page"))).2.1
    (some 403) (some "forbidden page") rfl (by decide)

/-! ## C6 — the per-URL pipeline never throws; failure record shape -/

/-- C6: the handler always emits exactly one record; whenever the fast
path is rejected and the rendered fetch throws, that record has
`success = false`, `errorMessage` equal to the thrown message, and the
fixed error markdown body, and the message's nonemptiness carries over
to `errorMessage`.  (The embedding is a total function: no exception
can propagate to the caller.) -/
theorem requestHandler_error_record : ∀ (url : String) (parse : String → HTree)
    (td : HTree → String) (extract : HTree → Option Extracted)
    (fast : FastOutcome) (rendered : RenderedOutcome),
    (requestHandler url parse td extract fast rendered).length = 1 ∧
    ∀ msg, fastAccepted fast = false → rendered = .threw msg →
      requestHandler url parse td extract fast rendered =
        [⟨url, "Error",
          "# Error Processing Page\n\n**URL:** " ++ url ++ "\n\n**Error:** " ++ msg,
          false, some msg⟩] ∧
      (msg ≠ "" → ∀ r ∈ requestHandler url parse td extract fast rendered,
        r.errorMessage.getD "" ≠ "") := by
  intro url parse td extract fast rendered
  constructor
  · cases fast with
    | threw =>
      cases rendered <;> simp [requestHandler]
    | ok st b =>
      simp only [requestHandler]
      split
      · rfl
      · split <;> rfl
  · rintro msg hrej rfl
    have hreq : requestHandler url parse td extract fast (.threw msg) =
        [⟨url, "Error",
          "# Error Processing Page\n\n**URL:** " ++ url ++ "\n\n**Error:** " ++ msg,
          false, some msg⟩] := by
      cases fast with
      | threw => simp [requestHandler]
      | ok st b =>
        simp only [requestHandler, hrej]
        rfl
    refine ⟨hreq, ?_⟩
    intro hne r hr
    rw [hreq] at hr
    simp only [List.mem_singleton] at hr
    subst hr
    simpa using hne

/-- Witness for C6 at a concrete input: both strategies fail. -/
theorem requestHandler_error_record_witness :
    requestHandler "https://example.test/a" (fun _ => .nil) (fun _ => "")
        (fun _ => none) .threw (.threw "net::ERR_FAILED") =
      [⟨"https://example.test/a", "Error",
        "# Error Processing Page\n\n**URL:** https://example.test/a\n\n**Error:** net::ERR_FAILED",
        false, some "net::ERR_FAILED"⟩] :=
  ((requestHandler_error_record "https://example.test/a" (fun _ => .nil) (fun _ => "")
      (fun _ => none) .threw (.threw "net::ERR_FAILED")).2 "net::ERR_FAILED"
    (by decide) rfl).1

/-! ## C7 — markdown template and title precedence -/

/-- C7: every built record's markdown is the fixed template
`# {title}`, blank line, `**URL Source:** {url}`, blank line, `---`,
blank line, body; the title is the extractor's title when the extractor
succeeds with one, else the page `<title>`/provided fallback, else the
literal `"Untitled"`. -/
theorem buildMarkdown_template_title : ∀ (extract : HTree → Option Extracted)
    (td : HTree → String) (html : HTree) (url fb : String),
    (∃ body, (buildMarkdownFromHtml extract td html url fb).1 =
        "# " ++ (buildMarkdownFromHtml extract td html url fb).2 ++
          "\n\n**URL Source:** " ++ url ++ "\n\n---\n\n" ++ body) ∧
    (∀ e, extract html = some e → e.title ≠ "" →
      (buildMarkdownFromHtml extract td html url fb).2 = e.title) ∧
    (∀ e, extract html = some e → e.title = "" → fb ≠ "" →
      (buildMarkdownFromHtml extract td html url fb).2 = fb) ∧
    (∀ e, extract html = some e → e.title = "" → fb = "" →
      (buildMarkdownFromHtml extract td html url fb).2 = "Untitled") ∧
    (extract html = none → ∀ t, (pickMainContent html).2 = some t → t ≠ "" →
      (buildMarkdownFromHtml extract td html url fb).2 = t) ∧
    (extract html = none → (pickMainContent html).2 = none → fb ≠ "" →
      (buildMarkdownFromHtml extract td html url fb).2 = fb) ∧
    (extract html = none → (pickMainContent html).2 = none → fb = "" →
      (buildMarkdownFromHtml extract td html url fb).2 = "Untitled") := by
  intro extract td html url fb
  cases hx : extract html with
  | some e =>
    refine ⟨⟨td (normalizeHtmlForMarkdown url e.content), by simp [buildMarkdownFromHtml, hx]⟩,
      ?_, ?_, ?_, by simp [hx], by simp [hx], by simp [hx]⟩
    · rintro e' he' hne
      injection he' with he'
      subst he'
      simp [buildMarkdownFromHtml, hx, strOr, hne]
    · rintro e' he' hti hfb
      injection he' with he'
      subst he'
      simp [buildMarkdownFromHtml, hx, strOr, hti, hfb]
    · rintro e' he' hti hfb
      injection he' with he'
      subst he'
      simp [buildMarkdownFromHtml, hx, strOr, hti, hfb]
  | none =>
    refine ⟨⟨td (normalizeHtmlForMarkdown url
        (if (pickMainContent html).1 = .nil then html else (pickMainContent html).1)),
      by simp [buildMarkdownFromHtml, hx]⟩,
      by simp [hx], by simp [hx], by simp [hx], ?_, ?_, ?_⟩
    · rintro _ t ht hne
      simp [buildMarkdownFromHtml, hx, strOr, ht, hne]
    · rintro _ ht hfb
      simp [buildMarkdownFromHtml, hx, strOr, ht, hfb]
    · rintro _ ht hfb
      simp [buildMarkdownFromHtml, hx, strOr, ht, hfb]

/-- Witness for C7 at a concrete input, matching §8's end-to-end
example: an extractor title `"Hi"` heads the record. -/
theorem buildMarkdown_template_title_witness :
    (buildMarkdownFromHtml (fun _ => some ⟨"Hi", .text "World" .nil⟩) (fun _ => "World")
      (.text "ignored" .nil) "https://example.test/a").2 = "Hi" :=
  (buildMarkdown_template_title (fun _ => some ⟨"Hi", .text "World" .nil⟩)
      (fun _ => "World") (.text "ignored" .nil) "https://example.test/a" "Untitled").2.1
    ⟨"Hi", .text "World" .nil⟩ rfl (by decide)

/-! ## List, trim and scheme lemmas -/

/-- Dropping a take-while prefix is `dropWhile`. -/
theorem drop_length_takeWhile (p : Char → Bool) :
    ∀ l : List Char, l.drop (l.takeWhile p).length = l.dropWhile p := by
  intro l
  induction l with
  | nil => rfl
  | cons a as ih =>
    rw [List.takeWhile_cons, List.dropWhile_cons]
    split
    · simpa using ih
    · simp

/-- `takeWhile` passes over a fully satisfying prefix. -/
theorem takeWhile_append_all (p : Char → Bool) :
    ∀ a b : List Char, (∀ c ∈ a, p c = true) →
      (a ++ b).takeWhile p = a ++ b.takeWhile p := by
  intro a
  induction a with
  | nil => simp
  | cons x xs ih =>
    intro b h
    rw [List.cons_append, List.takeWhile_cons, if_pos (h x (by simp))]
    rw [ih b (fun c hc => h c (by simp [hc]))]
    rfl

/-- `dropWhile` consumes a fully satisfying prefix. -/
theorem dropWhile_append_all (p : Char → Bool) :
    ∀ a b : List Char, (∀ c ∈ a, p c = true) →
      (a ++ b).dropWhile p = b.dropWhile p := by
  intro a
  induction a with
  | nil => simp
  | cons x xs ih =>
    intro b h
    rw [List.cons_append, List.dropWhile_cons, if_pos (h x (by simp))]
    exact ih b (fun c hc => h c (by simp [hc]))

/-- `takeWhile` keeps a fully satisfying list. -/
theorem takeWhile_all (p : Char → Bool) (a : List Char) (h : ∀ c ∈ a, p c = true) :
    a.takeWhile p = a := by
  have := takeWhile_append_all p a [] h
  simpa using this

/-- The head surviving `dropWhile` fails the predicate. -/
theorem head_dropWhile_not (p : Char → Bool) :
    ∀ (l : List Char) (c : Char) (cs : List Char), l.dropWhile p = c :: cs →
      p c = false := by
  intro l
  induction l with
  | nil => intro c cs h; simp at h
  | cons a as ih =>
    intro c cs h
    rw [List.dropWhile_cons] at h
    split at h
    · exact ih c cs h
    · cases h; simp_all

/-- `dropWhile` is the identity when the head already fails. -/
theorem dropWhile_cons_not (p : Char → Bool) (c : Char) (cs : List Char)
    (h : p c = false) : (c :: cs).dropWhile p = c :: cs := by
  rw [List.dropWhile_cons, if_neg (by simp [h])]

/-- The first character of a trimmed string is not whitespace. -/
theorem jsTrimL_head_not_ws (l : List Char) (c : Char)
    (h : (jsTrimL l).head? = some c) : isWsChar c = false := by
  unfold jsTrimL at h
  rw [List.head?_reverse] at h
  have hne : ((l.dropWhile isWsChar).reverse.dropWhile isWsChar) ≠ [] := by
    intro hx; rw [hx] at h; simp at h
  obtain ⟨t, ht⟩ := List.dropWhile_suffix
    (l := (l.dropWhile isWsChar).reverse) (p := isWsChar)
  have hm : ((l.dropWhile isWsChar).reverse).getLast? = some c := by
    rw [← ht, List.getLast?_append_of_ne_nil _ hne]; exact h
  rw [List.getLast?_reverse] at hm
  cases hd : (l.dropWhile isWsChar) with
  | nil => rw [hd] at hm; simp at hm
  | cons d ds =>
    rw [hd] at hm
    simp only [List.head?_cons, Option.some_inj] at hm
    subst hm
    exact head_dropWhile_not isWsChar l _ _ hd

/-- The last character of a trimmed string is not whitespace. -/
theorem jsTrimL_getLast_not_ws (l : List Char) (c : Char)
    (h : (jsTrimL l).getLast? = some c) : isWsChar c = false := by
  unfold jsTrimL at h
  rw [List.getLast?_reverse] at h
  cases hd : ((l.dropWhile isWsChar).reverse.dropWhile isWsChar) with
  | nil => rw [hd] at h; simp at h
  | cons d ds =>
    rw [hd] at h
    simp only [List.head?_cons, Option.some_inj] at h
    subst h
    exact head_dropWhile_not isWsChar _ _ _ hd

/-- Trimming is the identity on a string with non-whitespace ends. -/
theorem jsTrimL_eq_self (l : List Char)
    (h1 : ∀ c, l.head? = some c → isWsChar c = false)
    (h2 : ∀ c, l.getLast? = some c → isWsChar c = false) : jsTrimL l = l := by
  cases l with
  | nil => rfl
  | cons a as =>
    have ha : isWsChar a = false := h1 a rfl
    unfold jsTrimL
    rw [dropWhile_cons_not _ _ _ ha]
    cases hLast : (a :: as).getLast? with
    | none => simp at hLast
    | some z =>
      have hz := h2 z hLast
      have hzr : ((a :: as).reverse).head? = some z := by
        rw [List.head?_reverse]; exact hLast
      cases hr : (a :: as).reverse with
      | nil => simp at hr
      | cons b bs =>
        rw [hr] at hzr
        simp only [List.head?_cons, Option.some_inj] at hzr
        subst hzr
        rw [dropWhile_cons_not _ _ _ hz, ← hr, List.reverse_reverse]

/-- A letter is a scheme character. -/
theorem alpha_isSchemeChar (c : Char) (h : c.isAlpha = true) : isSchemeChar c = true := by
  simp [isSchemeChar, h]

/-- A letter is not whitespace. -/
theorem alpha_not_ws (c : Char) (h : c.isAlpha = true) : isWsChar c = false := by
  by_contra hc
  rw [Bool.not_eq_false] at hc
  simp only [isWsChar, Bool.or_eq_true, decide_eq_true_eq] at hc
  rcases hc with ((((rfl | rfl) | rfl) | rfl) | rfl) | rfl <;> exact absurd h (by decide)

/-- Decomposition of a successful `schemeSplit`. -/
theorem schemeSplit_eq (l pre rest : List Char)
    (h : schemeSplit l = some (pre, rest)) :
    l = pre ++ ':' :: rest ∧ pre ≠ [] ∧ (∀ c ∈ pre, isSchemeChar c = true) ∧
      ∃ c₀ cs₀, pre = c₀ :: cs₀ ∧ c₀.isAlpha = true := by
  unfold schemeSplit at h
  split at h
  · simp at h
  · next c t' =>
    split at h
    · next hc =>
      split at h
      · next rest' heq =>
        injection h with h'
        injection h' with hpre hrest
        subst hpre
        subst hrest
        rw [drop_length_takeWhile] at heq
        refine ⟨?_, ?_, fun x hx => List.mem_takeWhile_imp hx, ?_⟩
        · conv_lhs => rw [← List.takeWhile_append_dropWhile isSchemeChar (c :: t')]
          rw [heq]
        · rw [List.takeWhile_cons, if_pos (alpha_isSchemeChar c hc)]
          simp
        · refine ⟨c, t'.takeWhile isSchemeChar, ?_, hc⟩
          rw [List.takeWhile_cons, if_pos (alpha_isSchemeChar c hc)]
      · simp at h
    · simp at h

/-- Computation of `schemeSplit` on a well-formed scheme prefix. -/
theorem schemeSplit_mk (pre rest : List Char) (hne : pre ≠ [])
    (hall : ∀ c ∈ pre, isSchemeChar c = true)
    (halpha : ∀ c₀ cs₀, pre = c₀ :: cs₀ → c₀.isAlpha = true) :
    schemeSplit (pre ++ ':' :: rest) = some (pre, rest) := by
  cases pre with
  | nil => exact absurd rfl hne
  | cons c₀ cs₀ =>
    have hc₀ : c₀.isAlpha = true := halpha c₀ cs₀ rfl
    have htake : ((c₀ :: cs₀) ++ ':' :: rest).takeWhile isSchemeChar = c₀ :: cs₀ := by
      rw [takeWhile_append_all isSchemeChar _ _ hall, List.takeWhile_cons]
      rw [if_neg (by decide)]
      simp
    unfold schemeSplit
    simp only [List.cons_append, List.head?_cons]
    rw [show (c₀ :: (cs₀ ++ ':' :: rest)) = (c₀ :: cs₀) ++ ':' :: rest from rfl]
    rw [if_pos hc₀, htake, List.drop_left]
    rfl

/-- Shape of an accepted `toAbsolute` result: it starts with a scheme
whose lower-cased protocol is http/https, and it ends in a
non-whitespace character. -/
theorem toAbsolute_shape (base : String) (v h : List Char)
    (hab : toAbsoluteL base v = some h) :
    ∃ pre tail, schemeSplit h = some (pre, tail) ∧
      (lowerL pre ++ [':'] = "http:".data ∨ lowerL pre ++ [':'] = "https:".data) ∧
      (∀ c, h.getLast? = some c → isWsChar c = false) := by
  unfold toAbsoluteL at hab
  split at hab
  · simp at hab
  · split at hab
    · simp at hab
    · next hguard =>
      rw [Bool.or_eq_true, not_or] at hguard
      obtain ⟨htne', _⟩ := hguard
      have htne : jsTrimL v ≠ [] := by
        intro hx; exact htne' (by simp [hx])
      split at hab
      · simp at hab
      · next r hres =>
        split at hab
        · next hprot =>
          injection hab with hab
          subst hab
          simp only [Bool.or_eq_true, decide_eq_true_eq] at hprot
          unfold urlResolveL at hres
          split at hres
          · next pre t hsv =>
            injection hres with hres
            subst hres
            exact ⟨pre, t, hsv, hprot, fun c hc => jsTrimL_getLast_not_ws v c hc⟩
          · split at hres
            · simp at hres
            · next bpre brest hsb =>
              obtain ⟨_, hbne, hball, c₀, cs₀, hbeq, hbal⟩ :=
                schemeSplit_eq base.data bpre brest hsb
              have halpha : ∀ c₀' cs₀', bpre = c₀' :: cs₀' → c₀'.isAlpha = true := by
                intro c₀' cs₀' hd
                rw [hbeq] at hd
                injection hd with h1 _
                rw [← h1]; exact hbal
              split at hres
              · injection hres with hres
                subst hres
                refine ⟨bpre, _, schemeSplit_mk bpre _ hbne hball halpha, hprot, ?_⟩
                intro c hc
                have hc' : (bpre ++ ':' :: jsTrimL v).getLast? = some c := hc
                rw [show bpre ++ ':' :: jsTrimL v = (bpre ++ [':']) ++ jsTrimL v by simp]
                  at hc'
                rw [List.getLast?_append_of_ne_nil _ htne] at hc'
                exact jsTrimL_getLast_not_ws v c hc'
              · injection hres with hres
                subst hres
                refine ⟨bpre, _, schemeSplit_mk bpre _ hbne hball halpha, hprot, ?_⟩
                intro c hc
                have hc' : (bpre ++ ':' ::
                    ((originAndPath brest).1 ++ jsTrimL v)).getLast? = some c := hc
                rw [show bpre ++ ':' :: ((originAndPath brest).1 ++ jsTrimL v) =
                    (bpre ++ ':' :: (originAndPath brest).1) ++ jsTrimL v by simp] at hc'
                rw [List.getLast?_append_of_ne_nil _ htne] at hc'
                exact jsTrimL_getLast_not_ws v c hc'
              · injection hres with hres
                subst hres
                refine ⟨bpre, _, schemeSplit_mk bpre _ hbne hball halpha, hprot, ?_⟩
                intro c hc
                have hc' : (bpre ++ ':' :: (((originAndPath brest).1 ++
                    (match upToLastSlash (originAndPath brest).2 with
                     | some p => p
                     | none => ['/'])) ++ jsTrimL v)).getLast? = some c := hc
                rw [show bpre ++ ':' :: (((originAndPath brest).1 ++
                    (match upToLastSlash (originAndPath brest).2 with
                     | some p => p
                     | none => ['/'])) ++ jsTrimL v) =
                    (bpre ++ ':' :: ((originAndPath brest).1 ++
                    (match upToLastSlash (originAndPath brest).2 with
                     | some p => p
                     | none => ['/']))) ++ jsTrimL v by simp] at hc'
                rw [List.getLast?_append_of_ne_nil _ htne] at hc'
                exact jsTrimL_getLast_not_ws v c hc'
        · simp at hab

/-- Nonemptiness, trim-invariance and scheme-presence of an accepted
`toAbsolute` result. -/
theorem toAbsolute_facts (base : String) (v h : List Char)
    (hab : toAbsoluteL base v = some h) :
    h ≠ [] ∧ jsTrimL h = h ∧ (schemeSplit h).isSome = true := by
  obtain ⟨pre, tail, hss, _, hlast⟩ := toAbsolute_shape base v h hab
  obtain ⟨hdec, _, _, c₀, cs₀, hpeq, hc₀⟩ := schemeSplit_eq h pre tail hss
  refine ⟨by rw [hdec, hpeq]; simp, ?_, by rw [hss]; rfl⟩
  apply jsTrimL_eq_self
  · intro c hcc
    rw [hdec, hpeq] at hcc
    simp only [List.cons_append, List.head?_cons, Option.some_inj] at hcc
    rw [← hcc]
    exact alpha_not_ws c₀ hc₀
  · exact hlast

/-- Two scheme-shaped strings sharing a prefix up to the colon have the
same scheme. -/
theorem prefix_scheme_colon : ∀ (w pre t₁ tail : List Char),
    (∀ c ∈ w, isSchemeChar c = true) → (∀ c ∈ pre, isSchemeChar c = true) →
    (w ++ ':' :: t₁).isPrefixOf (pre ++ ':' :: tail) = true → w = pre := by
  intro w
  induction w with
  | nil =>
    intro pre t₁ tail _ hp hpf
    cases pre with
    | nil => rfl
    | cons c pre' =>
      have hpf' : ((':' == c) && (t₁.isPrefixOf (pre' ++ ':' :: tail))) = true := hpf
      rw [Bool.and_eq_true] at hpf'
      have hc : ':' = c := beq_iff_eq.mp hpf'.1
      have hcs := hp c (by simp)
      rw [← hc] at hcs
      exact absurd hcs (by decide)
  | cons a w' ih =>
    intro pre t₁ tail hw hp hpf
    cases pre with
    | nil =>
      have hpf' : ((a == ':') && ((w' ++ ':' :: t₁).isPrefixOf tail)) = true := hpf
      rw [Bool.and_eq_true] at hpf'
      have hc : a = ':' := beq_iff_eq.mp hpf'.1
      have hcs := hw a (by simp)
      rw [hc] at hcs
      exact absurd hcs (by decide)
    | cons c pre' =>
      have hpf' : ((a == c) &&
          ((w' ++ ':' :: t₁).isPrefixOf (pre' ++ ':' :: tail))) = true := hpf
      rw [Bool.and_eq_true] at hpf'
      have hc : a = c := beq_iff_eq.mp hpf'.1
      rw [hc, ih pre' t₁ tail (fun x hx => hw x (by simp [hx]))
        (fun x hx => hp x (by simp [hx])) hpf'.2]

/-- An accepted `toAbsolute` result is a fixpoint: resolving it again
yields it unchanged. -/
theorem toAbsolute_fixpoint (base : String) (v h : List Char)
    (hab : toAbsoluteL base v = some h) : toAbsoluteL base h = some h := by
  obtain ⟨pre, tail, hss, hprot, hlast⟩ := toAbsolute_shape base v h hab
  obtain ⟨hdec, hpne, hpall, c₀, cs₀, hpeq, hc₀⟩ := schemeSplit_eq h pre tail hss
  obtain ⟨hne, htrim, _⟩ := toAbsolute_facts base v h hab
  have hpref : urlPrefixes.any (fun p => p.isPrefixOf h) = false := by
    rw [List.any_eq_false]
    intro p hp
    simp only [urlPrefixes, List.mem_cons, List.not_mem_nil, or_false] at hp
    rcases hp with rfl | rfl | rfl | rfl
    · cases hbc : (("#".data).isPrefixOf h)
      · simp
      · exfalso
        rw [hdec, hpeq] at hbc
        have hbc' : (('#' == c₀) &&
            (([] : List Char).isPrefixOf (cs₀ ++ ':' :: tail))) = true := hbc
        rw [Bool.and_eq_true] at hbc'
        have hx : '#' = c₀ := beq_iff_eq.mp hbc'.1
        rw [← hx] at hc₀
        exact absurd hc₀ (by decide)
    · cases hbc : (("mailto:".data).isPrefixOf h)
      · simp
      · exfalso
        rw [hdec, show ("mailto:".data) = "mailto".data ++ ':' :: [] from by decide] at hbc
        have hxx := prefix_scheme_colon "mailto".data pre [] tail (by decide) hpall hbc
        rw [← hxx] at hprot
        rcases hprot with hx | hx <;> exact absurd hx (by decide)
    · cases hbc : (("javascript:".data).isPrefixOf h)
      · simp
      · exfalso
        rw [hdec,
          show ("javascript:".data) = "javascript".data ++ ':' :: [] from by decide] at hbc
        have hxx := prefix_scheme_colon "javascript".data pre [] tail (by decide) hpall hbc
        rw [← hxx] at hprot
        rcases hprot with hx | hx <;> exact absurd hx (by decide)
    · cases hbc : (("tel:".data).isPrefixOf h)
      · simp
      · exfalso
        rw [hdec, show ("tel:".data) = "tel".data ++ ':' :: [] from by decide] at hbc
        have hxx := prefix_scheme_colon "tel".data pre [] tail (by decide) hpall hbc
        rw [← hxx] at hprot
        rcases hprot with hx | hx <;> exact absurd hx (by decide)
  have hres : urlResolveL h base.data = some ⟨lowerL pre ++ [':'], h⟩ := by
    unfold urlResolveL
    rw [hss]
  unfold toAbsoluteL
  rw [htrim]
  rw [if_neg hne, if_neg (by simp [hne, hpref]), hres]
  have hcond : ((ResolvedUrl.mk (lowerL pre ++ [':']) h).protocol = "http:".data ||
      (ResolvedUrl.mk (lowerL pre ++ [':']) h).protocol = "https:".data) = true := by
    rcases hprot with hx | hx <;> simp [hx]
  simp only [hcond, if_true]

/-- Against a valid http/https base, every relative reference is
accepted by `toAbsolute` and resolves to an absolute http/https URL. -/
theorem toAbsolute_relative (base v : String) (hbase : baseValidB base = true)
    (hrel : isRelRefB v = true) :
    ∃ h, toAbsoluteL base v.data = some h ∧ isAbsHttpB h = true := by
  simp only [isRelRefB, Bool.and_eq_true, Bool.not_eq_true'] at hrel
  obtain ⟨⟨hne, hpref⟩, hnone⟩ := hrel
  have htne : jsTrimL v.data ≠ [] := by
    intro hx; rw [hx] at hne; simp at hne
  have hnone' : schemeSplit (jsTrimL v.data) = none := Option.isNone_iff_eq_none.mp hnone
  unfold baseValidB at hbase
  split at hbase
  · next bpre brest hsb =>
    simp only [Bool.or_eq_true, decide_eq_true_eq] at hbase
    obtain ⟨_, hbne, hball, c₀, cs₀, hbeq, hbal⟩ := schemeSplit_eq base.data bpre brest hsb
    have halpha : ∀ c₀' cs₀', bpre = c₀' :: cs₀' → c₀'.isAlpha = true := by
      intro c₀' cs₀' hd
      rw [hbeq] at hd
      injection hd with h1 _
      rw [← h1]; exact hbal
    have hprotEq : lowerL bpre ++ [':'] = "http:".data ∨
        lowerL bpre ++ [':'] = "https:".data := by
      rcases hbase with hx | hx
      · left; rw [hx]; decide
      · right; rw [hx]; decide
    have hvne : v.data ≠ [] := by
      intro hx
      rw [hx] at htne
      exact htne rfl
    have hhttp : ∀ X, isAbsHttpB (bpre ++ ':' :: X) = true := by
      intro X
      unfold isAbsHttpB
      rw [schemeSplit_mk bpre X hbne hball halpha]
      rcases hbase with hx | hx <;> simp [hx]
    have hcond : ∀ X : List Char, ((ResolvedUrl.mk (lowerL bpre ++ [':'])
        (bpre ++ ':' :: X)).protocol = "http:".data ||
        (ResolvedUrl.mk (lowerL bpre ++ [':'])
          (bpre ++ ':' :: X)).protocol = "https:".data) = true := by
      intro X
      rcases hprotEq with hx | hx <;> simp [hx]
    have main : ∀ X, urlResolveL (jsTrimL v.data) base.data =
        some (ResolvedUrl.mk (lowerL bpre ++ [':']) (bpre ++ ':' :: X)) →
        ∃ h, toAbsoluteL base v.data = some h ∧ isAbsHttpB h = true := by
      intro X hres
      refine ⟨bpre ++ ':' :: X, ?_, hhttp X⟩
      unfold toAbsoluteL
      rw [if_neg hvne, if_neg (by simp [htne, hpref]), hres]
      simp only [hcond X, if_true]
    have hred : urlResolveL (jsTrimL v.data) base.data =
        (match jsTrimL v.data with
         | '/' :: '/' :: _ =>
           some (ResolvedUrl.mk (lowerL bpre ++ [':']) (bpre ++ ':' :: jsTrimL v.data))
         | '/' :: _ =>
           some (ResolvedUrl.mk (lowerL bpre ++ [':'])
             (bpre ++ ':' :: ((originAndPath brest).1 ++ jsTrimL v.data)))
         | _ =>
           some (ResolvedUrl.mk (lowerL bpre ++ [':'])
             (bpre ++ ':' :: (((originAndPath brest).1 ++
               (match upToLastSlash (originAndPath brest).2 with
                | some p => p
                | none => ['/'])) ++ jsTrimL v.data)))) := by
      unfold urlResolveL
      rw [hnone', hsb]
    split at hred
    · exact main _ hred
    · exact main _ hred
    · exact main _ hred
  · simp at hbase

/-- `applyAbs` keeps the value when `toAbsolute` rejects it. -/
theorem applyAbs_none (base v : String) (h : toAbsoluteL base v.data = none) :
    applyAbs base v = v := by
  unfold applyAbs
  rw [h]

/-- `applyAbs` stores the resolved URL when `toAbsolute` accepts it. -/
theorem applyAbs_some (base v : String) (h : List Char)
    (hab : toAbsoluteL base v.data = some h) : applyAbs base v = ⟨h⟩ := by
  obtain ⟨hne, _, _⟩ := toAbsolute_facts base v.data h hab
  unfold applyAbs
  rw [hab]
  show (if h = [] then v else (⟨h⟩ : String)) = ⟨h⟩
  rw [if_neg hne]

/-- `applyAbs` is idempotent. -/
theorem applyAbs_idem (base v : String) :
    applyAbs base (applyAbs base v) = applyAbs base v := by
  cases hab : toAbsoluteL base v.data with
  | none => rw [applyAbs_none base v hab, applyAbs_none base v hab]
  | some h =>
    rw [applyAbs_some base v h hab]
    have hfix := toAbsolute_fixpoint base v.data h hab
    rw [applyAbs_some base ⟨h⟩ h hfix]

/-- `rewriteAttr` never changes the attribute name. -/
theorem rewriteAttr_fst (base tag : String) (p : String × String) :
    (rewriteAttr base tag p).1 = p.1 := by
  unfold rewriteAttr
  split
  · rfl
  · split
    · rfl
    · split
      · rfl
      · rfl

/-- On a handled (tag, href/src) pair, `rewriteAttr` applies `applyAbs`. -/
theorem rewriteAttr_handled (base tag : String) (p : String × String)
    (h : hrefSrcHandled tag p.1 = true) :
    rewriteAttr base tag p = (p.1, applyAbs base p.2) := by
  unfold hrefSrcHandled at h
  rw [Bool.or_eq_true] at h
  unfold rewriteAttr
  rcases h with h | h
  · rw [if_pos h]
  · rw [Bool.and_eq_true, decide_eq_true_eq] at h
    rw [if_neg (by simp [h.1]), if_pos (by simp only [h.1, h.2]; simp)]

/-- The stored value of a handled attribute is never a relative
reference when the base URL is valid. -/
theorem applyAbs_not_rel (base v : String) (hbase : baseValidB base = true) :
    isRelRefB (applyAbs base v) = false := by
  cases hab : toAbsoluteL base v.data with
  | none =>
    rw [applyAbs_none base v hab]
    cases hr : isRelRefB v
    · rfl
    · obtain ⟨h, hsome, _⟩ := toAbsolute_relative base v hbase hr
      rw [hab] at hsome
      exact absurd hsome (by simp)
  | some h =>
    rw [applyAbs_some base v h hab]
    obtain ⟨_, htrim, hss⟩ := toAbsolute_facts base v.data h hab
    obtain ⟨q, hq⟩ := Option.isSome_iff_exists.mp hss
    unfold isRelRefB
    show (_ && (schemeSplit (jsTrimL h)).isNone) = false
    rw [htrim, hq]
    simp

/-- After normalization, no handled href/src attribute anywhere in the
forest is a relative reference (valid base). -/
theorem normalize_no_relative (base : String) (hbase : baseValidB base = true) :
    ∀ f : HTree, allElems (fun tag attrs => ∀ pr ∈ attrs,
      hrefSrcHandled tag pr.1 = true → isRelRefB pr.2 = false)
      (normalizeHtmlForMarkdown base f) := by
  intro f
  induction f with
  | nil => trivial
  | text s rest ih => exact ih
  | elem tag attrs children rest ihc ihr =>
    unfold normalizeHtmlForMarkdown
    split
    · exact ihr
    · refine ⟨?_, ihc, ihr⟩
      intro pr hpr hh
      rw [List.mem_map] at hpr
      obtain ⟨q, hq, rfl⟩ := hpr
      rw [rewriteAttr_fst] at hh
      have hfin := applyAbs_not_rel base q.2 hbase
      rw [rewriteAttr_handled base tag q hh]
      exact hfin

/-! ## C2 — absolutization of href/src attributes -/

/-- C2 counterexample: the normalizer rewrites `src` only on
img/source/video/audio/track elements, so an `<embed>` keeps its
relative, perfectly resolvable `src` — refuting "every href/src
attribute value that was relative is absolute afterward". -/
theorem normalize_absolutizes_counterexample :
    normalizeHtmlForMarkdown "https://e.com/" embedDoc = embedDoc ∧
      isRelRefB "a.png" = true ∧
      toAbsolute "https://e.com/" "a.png" = some "https://e.com/a.png" := by
  decide

/-- C2 amended: for `href` on a/link and `src` on
img/source/video/audio/track, empty or `#`/`mailto:`/`javascript:`/
`tel:`-prefixed values are left unmodified; a resolved value with a
non-http/https scheme leaves the attribute untouched; against a valid
http/https base every relative reference is replaced by its absolute
http/https resolution, and after normalization no handled attribute in
the forest remains relative. -/
theorem normalize_absolutizes : ∀ (base v : String),
    (jsTrimL v.data = [] ∨
        urlPrefixes.any (fun p => p.isPrefixOf (jsTrimL v.data)) = true →
      applyAbs base v = v) ∧
    (∀ r, urlResolveL (jsTrimL v.data) base.data = some r →
      r.protocol ≠ "http:".data → r.protocol ≠ "https:".data →
      applyAbs base v = v) ∧
    (baseValidB base = true → isRelRefB v = true →
      ∃ h, toAbsoluteL base v.data = some h ∧ applyAbs base v = ⟨h⟩ ∧
        isAbsHttpB h = true) ∧
    (baseValidB base = true → ∀ f : HTree,
      allElems (fun tag attrs => ∀ pr ∈ attrs, hrefSrcHandled tag pr.1 = true →
        isRelRefB pr.2 = false) (normalizeHtmlForMarkdown base f)) := by
  intro base v
  refine ⟨?_, ?_, ?_, ?_⟩
  · intro hg
    apply applyAbs_none
    unfold toAbsoluteL
    split
    · rfl
    · have hg' : (decide (jsTrimL v.data = []) ||
          urlPrefixes.any (fun p => p.isPrefixOf (jsTrimL v.data))) = true := by
        rcases hg with h | h
        · simp [h]
        · simp [h]
      rw [if_pos hg']
  · intro r hres h1 h2
    apply applyAbs_none
    unfold toAbsoluteL
    split
    · rfl
    · split
      · rfl
      · rw [hres]
        simp [h1, h2]
  · intro hb hr
    obtain ⟨h, hsome, habs⟩ := toAbsolute_relative base v hb hr
    exact ⟨h, hsome, applyAbs_some base v h hsome, habs⟩
  · intro hb f
    exact normalize_no_relative base hb f

/-- Witness for the amended C2 at a concrete input. -/
theorem normalize_absolutizes_witness :
    ∃ h, toAbsoluteL "https://e.com/" "img/x.png".data = some h ∧
      applyAbs "https://e.com/" "img/x.png" = ⟨h⟩ ∧ isAbsHttpB h = true :=
  (normalize_absolutizes "https://e.com/" "img/x.png").2.2.1 (by decide) (by decide)

/-! ## C9 — totality and failure-preservation of the normalizer -/

/-- C9: the normalizer is a total function of its embedded inputs; an
attribute value whose URL resolution fails (thrown constructor) or is
rejected is left unchanged, and a srcset value all of whose entries are
rejected is left unchanged. -/
theorem normalize_total_preserving : ∀ (base v : String),
    (urlResolveL (jsTrimL v.data) base.data = none → applyAbs base v = v) ∧
    (toAbsoluteL base v.data = none → applyAbs base v = v) ∧
    ((∀ p ∈ srcsetPartsL v.data, toAbsoluteL base (wsSplit2 p).1 = none) →
      applySrcset base v = v) := by
  intro base v
  refine ⟨?_, fun h => applyAbs_none base v h, ?_⟩
  · intro hres
    apply applyAbs_none
    unfold toAbsoluteL
    split
    · rfl
    · split
      · rfl
      · rw [hres]
  · intro hall
    unfold applySrcset
    split
    · rfl
    · have hnil : srcsetTransformL base v.data = [] := by
        unfold srcsetTransformL
        rw [show ((srcsetPartsL v.data).filterMap (srcsetEntry base)) =
            ([] : List (List Char)) from ?_]
        · rfl
        · rw [List.filterMap_eq_nil_iff]
          intro p hp
          unfold srcsetEntry
          rw [hall p hp]
      rw [hnil]
      split
      · rfl
      · next hcontra => exact absurd rfl hcontra

/-- Witness for C9 at a concrete input: an unparsable base leaves the
relative value untouched. -/
theorem normalize_total_preserving_witness :
    applyAbs "not a url" "page.html" = "page.html" :=
  (normalize_total_preserving "not a url" "page.html").1 (by decide)

/-- Invariants of one tier scan: the best length never decreases, the
state is unchanged or replaced by an in-tier eligible match, and no
scanned match strictly beats the final state while eligible. -/
theorem scanTier_spec : ∀ (els : List Elem) (st : Option Elem × Nat),
    st.2 ≤ (scanTier els st).2 ∧
    (scanTier els st = st ∨ ∃ el ∈ els, scanTier els st = (some el, visLenOf el.2.2) ∧
      120 < visLenOf el.2.2 ∧ st.2 < visLenOf el.2.2) ∧
    (∀ e ∈ els, visLenOf e.2.2 ≤ (scanTier els st).2 ∨ visLenOf e.2.2 ≤ 120) := by
  intro els
  induction els with
  | nil =>
    intro st
    refine ⟨le_refl _, Or.inl rfl, ?_⟩
    intro e he
    simp at he
  | cons el els' ih =>
    intro st
    have hstep : scanTier (el :: els') st =
        scanTier els' (if st.2 < visLenOf el.2.2 ∧ 120 < visLenOf el.2.2
          then (some el, visLenOf el.2.2) else st) := by
      unfold scanTier
      rw [List.foldl_cons]
    by_cases hc : st.2 < visLenOf el.2.2 ∧ 120 < visLenOf el.2.2
    · rw [if_pos hc] at hstep
      obtain ⟨ih1, ih2, ih3⟩ := ih (some el, visLenOf el.2.2)
      refine ⟨?_, ?_, ?_⟩
      · rw [hstep]
        simp only at ih1
        omega
      · rw [hstep]
        rcases ih2 with h | ⟨el', hmem, heq, h120, hlt⟩
        · exact Or.inr ⟨el, by simp, by rw [h], hc.2, hc.1⟩
        · simp only at hlt
          exact Or.inr ⟨el', by simp [hmem], heq, h120, by omega⟩
      · intro e he
        rw [hstep]
        rcases List.mem_cons.mp he with rfl | he'
        · simp only at ih1
          left
          omega
        · exact ih3 e he'
    · rw [if_neg hc] at hstep
      obtain ⟨ih1, ih2, ih3⟩ := ih st
      refine ⟨?_, ?_, ?_⟩
      · rw [hstep]; exact ih1
      · rw [hstep]
        rcases ih2 with h | ⟨el', hmem, heq, h120, hlt⟩
        · exact Or.inl h
        · exact Or.inr ⟨el', by simp [hmem], heq, h120, hlt⟩
      · intro e he
        rw [hstep]
        rcases List.mem_cons.mp he with rfl | he'
        · by_cases h120 : visLenOf e.2.2 ≤ 120
          · exact Or.inr h120
          · left
            have hL : 120 < visLenOf e.2.2 := by omega
            have hst : ¬(st.2 < visLenOf e.2.2) := fun hlt => hc ⟨hlt, hL⟩
            omega
        · exact ih3 e he'

/-- Characterization of the tier loop started from the empty state. -/
theorem pickLoop_spec : ∀ (f : HTree) (sels : List Selector),
    ((pickLoop f sels (none, 0)).1 = none →
      ∀ sel ∈ sels, ∀ e ∈ matchesOf sel f, visLenOf e.2.2 ≤ 120) ∧
    (∀ el, (pickLoop f sels (none, 0)).1 = some el →
      ∃ s₁ sel s₂, sels = s₁ ++ sel :: s₂ ∧
        (∀ s ∈ s₁, ∀ e ∈ matchesOf s f, visLenOf e.2.2 ≤ 120) ∧
        el ∈ matchesOf sel f ∧ 120 < visLenOf el.2.2 ∧
        (∀ e ∈ matchesOf sel f, visLenOf e.2.2 ≤ visLenOf el.2.2)) := by
  intro f sels
  induction sels with
  | nil =>
    refine ⟨?_, ?_⟩
    · intro _ sel hsel
      simp at hsel
    · intro el h
      simp [pickLoop] at h
  | cons sel rest ih =>
    have hdef : pickLoop f (sel :: rest) (none, 0) =
        (if (scanTier (matchesOf sel f) (none, 0)).1.isSome
         then scanTier (matchesOf sel f) (none, 0)
         else pickLoop f rest (scanTier (matchesOf sel f) (none, 0))) := rfl
    obtain ⟨sc1, sc2, sc3⟩ := scanTier_spec (matchesOf sel f) (none, 0)
    rcases sc2 with hid | ⟨el₀, hmem₀, heq₀, h120₀, _⟩
    · have hcond : (scanTier (matchesOf sel f) (none, 0)).1.isSome = false := by
        rw [hid]
        rfl
      rw [hdef, if_neg (by rw [hcond]; simp), hid]
      obtain ⟨ihn, ihs⟩ := ih
      constructor
      · intro hnone sel' hsel' e he
        rcases List.mem_cons.mp hsel' with rfl | hsel''
        · rcases sc3 e he with hle | hle
          · rw [hid] at hle
            simp only at hle
            omega
          · exact hle
        · exact ihn hnone sel' hsel'' e he
      · intro el hsome
        obtain ⟨s₁, sel', s₂, hdecomp, hpre, hmem, h120, hmax⟩ := ihs el hsome
        refine ⟨sel :: s₁, sel', s₂, by rw [hdecomp]; rfl, ?_, hmem, h120, hmax⟩
        intro s hs e he
        rcases List.mem_cons.mp hs with rfl | hs'
        · rcases sc3 e he with hle | hle
          · rw [hid] at hle
            simp only at hle
            omega
          · exact hle
        · exact hpre s hs' e he
    · have hcond : (scanTier (matchesOf sel f) (none, 0)).1.isSome = true := by
        rw [heq₀]
        rfl
      rw [hdef, if_pos hcond]
      constructor
      · intro hnone
        rw [heq₀] at hnone
        simp at hnone
      · intro el hsome
        rw [heq₀] at hsome
        have hsome' : some el₀ = some el := hsome
        injection hsome' with hsome'
        subst hsome'
        refine ⟨[], sel, rest, rfl, by simp, hmem₀, h120₀, ?_⟩
        intro e he
        rcases sc3 e he with hle | hle
        · rw [heq₀] at hle
          exact hle
        · omega

/-! ## C5 — Main-Content Selector -/

/-- C5: the selector list is scanned in priority order; a candidate is
eligible only when its collapsed visible text exceeds 120 characters;
the first tier with an eligible match wins with the longest eligible
match inside it; with no eligible match anywhere the full body content
is returned; and on the §8 example page the 50-character `<article>`
does not qualify, so the 300-character `.content` div is selected. -/
theorem pickMainContent_spec : ∀ f : HTree,
    (pickBest f = none → ∀ sel ∈ CONTENT_SELECTORS, ∀ e ∈ matchesOf sel f,
      visLenOf e.2.2 ≤ 120) ∧
    (∀ el, pickBest f = some el →
      ∃ s₁ sel s₂, CONTENT_SELECTORS = s₁ ++ sel :: s₂ ∧
        (∀ s ∈ s₁, ∀ e ∈ matchesOf s f, visLenOf e.2.2 ≤ 120) ∧
        el ∈ matchesOf sel f ∧ 120 < visLenOf el.2.2 ∧
        (∀ e ∈ matchesOf sel f, visLenOf e.2.2 ≤ visLenOf el.2.2)) ∧
    (pickBest f = none → (pickMainContent f).1 = f) ∧
    (∀ el, pickBest f = some el → (pickMainContent f).1 = el.2.2) ∧
    (f = exPage → pickBest f = some exContentDiv) := by
  intro f
  obtain ⟨h1, h2⟩ := pickLoop_spec f CONTENT_SELECTORS
  refine ⟨h1, h2, ?_, ?_, ?_⟩
  · intro hnone
    simp [pickMainContent, hnone]
  · intro el hsome
    simp [pickMainContent, hsome]
  · rintro rfl
    decide

/-- Witness for C5 at the §8 example page. -/
theorem pickMainContent_spec_witness :
    pickBest exPage = some exContentDiv ∧ 120 < visLenOf exContentDiv.2.2 := by
  have h := pickMainContent_spec exPage
  have heq : pickBest exPage = some exContentDiv := h.2.2.2.2 rfl
  obtain ⟨s₁, sel, s₂, _, _, _, h120, _⟩ := h.2.1 exContentDiv heq
  exact ⟨heq, h120⟩

/-! ## srcset split/join lemmas -/

/-- `splitCommaL` parts never contain a comma. -/
theorem splitCommaL_no_comma : ∀ (l : List Char), ∀ p ∈ splitCommaL l, ',' ∉ p := by
  intro l
  induction l with
  | nil =>
    intro p hp
    simp only [splitCommaL, List.mem_singleton] at hp
    subst hp
    simp
  | cons c rest ih =>
    intro p hp
    unfold splitCommaL at hp
    split at hp
    · rcases List.mem_cons.mp hp with rfl | hp'
      · simp
      · exact ih p hp'
    · next hcne =>
      rcases hsp : splitCommaL rest with _ | ⟨q, qs⟩
      · rw [hsp] at hp
        simp only [List.mem_singleton] at hp
        subst hp
        simp only [List.mem_singleton]
        intro hcc
        exact hcne hcc.symm
      · rw [hsp] at hp
        rcases List.mem_cons.mp hp with rfl | hp'
        · intro hm
          rcases List.mem_cons.mp hm with hm' | hm'
          · exact hcne hm'.symm
          · exact ih q (by rw [hsp]; simp) hm'
        · exact ih p (by rw [hsp]; simp [hp'])

/-- Splitting after a comma-free prefix and a comma. -/
theorem splitCommaL_append : ∀ (a t : List Char), ',' ∉ a →
    splitCommaL (a ++ ',' :: t) = a :: splitCommaL t := by
  intro a
  induction a with
  | nil =>
    intro t _
    simp [splitCommaL]
  | cons c a' ih =>
    intro t hna
    have hc : ¬(c = ',') := by
      intro hcc
      exact hna (by simp [hcc])
    rw [List.cons_append]
    conv_lhs => rw [splitCommaL]
    rw [if_neg hc, ih t (fun hm => hna (by simp [hm]))]

/-- Splitting a comma-free list. -/
theorem splitCommaL_single : ∀ (a : List Char), ',' ∉ a → splitCommaL a = [a] := by
  intro a
  induction a with
  | nil => intro; rfl
  | cons c a' ih =>
    intro hna
    have hc : ¬(c = ',') := by
      intro hcc
      exact hna (by simp [hcc])
    unfold splitCommaL
    rw [if_neg hc, ih (fun hm => hna (by simp [hm]))]

/-- Splitting a `", "`-join of comma-free entries. -/
theorem splitCommaL_join : ∀ (qs : List (List Char)) (q : List Char),
    (∀ x ∈ q :: qs, ',' ∉ x) →
    splitCommaL (joinCommaSpace (q :: qs)) = q :: qs.map (fun x => ' ' :: x) := by
  intro qs
  induction qs with
  | nil =>
    intro q hq
    exact splitCommaL_single q (hq q (by simp))
  | cons q' qs' ih =>
    intro q hq
    show splitCommaL (q ++ ',' :: ' ' :: joinCommaSpace (q' :: qs')) = _
    rw [splitCommaL_append q _ (hq q (by simp))]
    have hih := ih q' (fun x hx => hq x (by
      rcases List.mem_cons.mp hx with rfl | hx'
      · simp
      · simp [hx']))
    show _ :: splitCommaL (' ' :: joinCommaSpace (q' :: qs')) = _
    unfold splitCommaL
    rw [if_neg (by decide)]
    rw [hih]
    rfl

/-- Trimming ignores a single leading space. -/
theorem jsTrimL_cons_space (x : List Char) : jsTrimL (' ' :: x) = jsTrimL x := by
  unfold jsTrimL
  rw [List.dropWhile_cons, if_pos (by decide)]

/-- Trimming is idempotent. -/
theorem jsTrimL_idem (l : List Char) : jsTrimL (jsTrimL l) = jsTrimL l :=
  jsTrimL_eq_self _ (fun c hc => jsTrimL_head_not_ws l c hc)
    (fun c hc => jsTrimL_getLast_not_ws l c hc)

/-- Trimming only removes characters. -/
theorem jsTrimL_subset (l : List Char) : ∀ c ∈ jsTrimL l, c ∈ l := by
  intro c hc
  unfold jsTrimL at hc
  rw [List.mem_reverse] at hc
  have h2 := (List.dropWhile_sublist isWsChar).subset hc
  rw [List.mem_reverse] at h2
  exact (List.dropWhile_sublist isWsChar).subset h2

/-- Every trimmed nonempty srcset entry is itself nonempty, comma-free
and trim-invariant. -/
theorem srcsetPartsL_facts (v : List Char) :
    ∀ p ∈ srcsetPartsL v, p ≠ [] ∧ ',' ∉ p ∧ jsTrimL p = p := by
  intro p hp
  unfold srcsetPartsL at hp
  rw [List.mem_filter] at hp
  obtain ⟨hp, hne⟩ := hp
  rw [List.mem_map] at hp
  obtain ⟨p₀, hp₀, rfl⟩ := hp
  refine ⟨by simpa using hne, ?_, jsTrimL_idem p₀⟩
  intro hm
  exact splitCommaL_no_comma v p₀ hp₀ (jsTrimL_subset p₀ ',' hm)

/-- Membership of the last element. -/
theorem mem_of_getLast_eq {l : List Char} {c : Char} (h : l.getLast? = some c) :
    c ∈ l := by
  rw [← List.head?_reverse] at h
  rcases hrev : l.reverse with _ | ⟨r0, rs⟩
  · rw [hrev] at h
    simp at h
  · rw [hrev, List.head?_cons] at h
    injection h with h
    rw [← List.mem_reverse, hrev, ← h]
    simp

/-- Facts about the descriptor token of a srcset entry. -/
theorem wsSplit2_desc (p d : List Char) (h : (wsSplit2 p).2 = some d) :
    d ≠ [] ∧ (∀ c ∈ d, isWsChar c = false) ∧ (∀ c ∈ d, c ∈ p) := by
  unfold wsSplit2 at h
  simp only at h
  split at h
  · simp at h
  · next hrne =>
    injection h with h
    subst h
    refine ⟨?_, ?_, ?_⟩
    · rcases hR : (p.drop (p.takeWhile (fun c => !isWsChar c)).length).dropWhile
          isWsChar with _ | ⟨r₀, rs⟩
      · exact absurd hR hrne
      · rw [List.takeWhile_cons,
          if_pos (by simp [head_dropWhile_not isWsChar _ _ _ hR])]
        simp
    · intro c hc
      have := List.mem_takeWhile_imp hc
      simpa using this
    · intro c hc
      have h1 := (List.takeWhile_sublist (fun c => !isWsChar c)).subset hc
      have h2 := (List.dropWhile_sublist isWsChar).subset h1
      exact List.drop_subset _ p h2

/-- `wsSplit2` on a rebuilt `URL + space + descriptor` entry. -/
theorem wsSplit2_rebuild_some (h d : List Char) (_hne : h ≠ [])
    (hnws : ∀ c ∈ h, isWsChar c = false) (hdne : d ≠ [])
    (hdws : ∀ c ∈ d, isWsChar c = false) :
    wsSplit2 (h ++ ' ' :: d) = (h, some d) := by
  have htake : (h ++ ' ' :: d).takeWhile (fun c => !isWsChar c) = h := by
    rw [takeWhile_append_all _ h (' ' :: d) (fun c hc => by simp [hnws c hc])]
    rw [List.takeWhile_cons, if_neg (by decide)]
    simp
  have hrest : (' ' :: d).dropWhile isWsChar = d := by
    rw [List.dropWhile_cons, if_pos (by decide)]
    cases d with
    | nil => exact absurd rfl hdne
    | cons d0 ds => exact dropWhile_cons_not _ _ _ (hdws d0 (by simp))
  unfold wsSplit2
  rw [htake, List.drop_left, hrest, if_neg hdne,
    takeWhile_all _ d (fun c hc => by simp [hdws c hc])]

/-- `wsSplit2` on a rebuilt bare-URL entry. -/
theorem wsSplit2_rebuild_none (h : List Char)
    (hnws : ∀ c ∈ h, isWsChar c = false) :
    wsSplit2 h = (h, none) := by
  have htake : h.takeWhile (fun c => !isWsChar c) = h :=
    takeWhile_all _ h (fun c hc => by simp [hnws c hc])
  unfold wsSplit2
  rw [htake, List.drop_length]
  rfl

/-- Trim-invariance of a whitespace-free token. -/
theorem jsTrimL_token (h : List Char) (hnws : ∀ c ∈ h, isWsChar c = false) :
    jsTrimL h = h := by
  apply jsTrimL_eq_self
  · intro c hc
    cases h with
    | nil => simp at hc
    | cons h0 hs =>
      rw [List.head?_cons] at hc
      injection hc with hc
      rw [← hc]
      exact hnws h0 (by simp)
  · intro c hc
    exact hnws c (mem_of_getLast_eq hc)

/-- Trim-invariance of a rebuilt `URL + space + descriptor` entry. -/
theorem jsTrimL_rebuild (h d : List Char) (hne : h ≠ [])
    (hnws : ∀ c ∈ h, isWsChar c = false) (hdne : d ≠ [])
    (hdws : ∀ c ∈ d, isWsChar c = false) :
    jsTrimL (h ++ ' ' :: d) = h ++ ' ' :: d := by
  apply jsTrimL_eq_self
  · intro c hc
    cases h with
    | nil => exact absurd rfl hne
    | cons h0 hs =>
      rw [List.cons_append, List.head?_cons] at hc
      injection hc with hc
      rw [← hc]
      exact hnws h0 (by simp)
  · intro c hc
    rw [show h ++ ' ' :: d = (h ++ [' ']) ++ d from by simp] at hc
    rw [List.getLast?_append_of_ne_nil _ hdne] at hc
    exact hdws c (mem_of_getLast_eq hc)

/-- `filterMap` of an everywhere-successful function is a `map`. -/
theorem filterMap_eq_map_of_some {α β : Type} (f : α → Option β) (g : α → β) :
    ∀ l : List α, (∀ a ∈ l, f a = some (g a)) → l.filterMap f = l.map g := by
  intro l
  induction l with
  | nil => intro; rfl
  | cons a l' ih =>
    intro h
    rw [List.filterMap_cons, h a (by simp), List.map_cons,
      ih (fun x hx => h x (by simp [hx]))]

/-- Splitting and trimming a `", "`-join of clean entries recovers the
entries. -/
theorem splitCommaL_join_trim (qs : List (List Char)) (q : List Char)
    (hq : ∀ x ∈ q :: qs, x ≠ [] ∧ ',' ∉ x ∧ jsTrimL x = x) :
    (splitCommaL (joinCommaSpace (q :: qs))).map jsTrimL = q :: qs := by
  rw [splitCommaL_join qs q (fun x hx => (hq x hx).2.1)]
  rw [List.map_cons, (hq q (by simp)).2.2, List.map_map]
  have hmap : qs.map (jsTrimL ∘ fun x => ' ' :: x) = qs.map id := by
    apply List.map_congr_left
    intro x hx
    show jsTrimL (' ' :: x) = x
    rw [jsTrimL_cons_space]
    exact (hq x (by simp [hx])).2.2
  rw [hmap, List.map_id]

/-- `srcsetPartsL` of a `", "`-join of clean entries recovers them. -/
theorem srcsetPartsL_join (qs : List (List Char)) (q : List Char)
    (hq : ∀ x ∈ q :: qs, x ≠ [] ∧ ',' ∉ x ∧ jsTrimL x = x) :
    srcsetPartsL (joinCommaSpace (q :: qs)) = q :: qs := by
  unfold srcsetPartsL
  rw [splitCommaL_join_trim qs q hq]
  rw [List.filter_eq_self.mpr]
  intro x hx
  simpa using (hq x hx).1

/-- On an accepted entry, `srcsetEntry` is the total rebuild. -/
theorem srcsetEntry_eq_rebuild (base : String) (p h : List Char)
    (heq : toAbsoluteL base (wsSplit2 p).1 = some h) :
    srcsetEntry base p = some (rebuildEntry base p) := by
  unfold srcsetEntry rebuildEntry
  rw [heq]
  cases (wsSplit2 p).2 <;> rfl

/-- The split of a rebuilt entry: URL token and original descriptor. -/
theorem rebuildEntry_split (base : String) (p h : List Char)
    (heq : toAbsoluteL base (wsSplit2 p).1 = some h)
    (hws : ∀ c ∈ h, isWsChar c = false) :
    wsSplit2 (rebuildEntry base p) = (h, (wsSplit2 p).2) := by
  have hne : h ≠ [] := (toAbsolute_facts base _ h heq).1
  unfold rebuildEntry
  rw [heq]
  cases hdesc : (wsSplit2 p).2 with
  | none => exact wsSplit2_rebuild_none h hws
  | some d =>
    obtain ⟨hdne, hdws, _⟩ := wsSplit2_desc p d hdesc
    exact wsSplit2_rebuild_some h d hne hws hdne hdws

/-- A rebuilt entry is nonempty, comma-free and trim-invariant. -/
theorem rebuildEntry_clean (base : String) (v p h : List Char)
    (hp : p ∈ srcsetPartsL v)
    (heq : toAbsoluteL base (wsSplit2 p).1 = some h)
    (hws : ∀ c ∈ h, isWsChar c = false) (hcomma : ',' ∉ h) :
    rebuildEntry base p ≠ [] ∧ ',' ∉ rebuildEntry base p ∧
      jsTrimL (rebuildEntry base p) = rebuildEntry base p := by
  have hne : h ≠ [] := (toAbsolute_facts base _ h heq).1
  unfold rebuildEntry
  rw [heq]
  cases hdesc : (wsSplit2 p).2 with
  | none => exact ⟨by simpa using hne, by simpa using hcomma, jsTrimL_token h hws⟩
  | some d =>
    obtain ⟨hdne, hdws, hdmem⟩ := wsSplit2_desc p d hdesc
    have hdcomma : ',' ∉ d := fun hm => (srcsetPartsL_facts v p hp).2.1 (hdmem ',' hm)
    refine ⟨by simp, ?_, ?_⟩
    · intro hm
      simp only [Option.getD_some] at hm
      rcases List.mem_append.mp hm with hm' | hm'
      · exact hcomma hm'
      · rcases List.mem_cons.mp hm' with hm'' | hm''
        · exact absurd hm'' (by decide)
        · exact hdcomma hm''
    · simpa using jsTrimL_rebuild h d hne hws hdne hdws

/-- Under the all-entries-accepted hypothesis, the srcset transform is
the join of the rebuilt entries. -/
theorem srcsetTransform_rebuild (base : String) (v : List Char)
    (hall : ∀ p ∈ srcsetPartsL v, goodAbs (toAbsoluteL base (wsSplit2 p).1) = true) :
    srcsetTransformL base v =
      joinCommaSpace ((srcsetPartsL v).map (rebuildEntry base)) := by
  unfold srcsetTransformL
  rw [filterMap_eq_map_of_some (srcsetEntry base) (rebuildEntry base)
    (srcsetPartsL v) ?_]
  intro p hp
  have hg := hall p hp
  unfold goodAbs at hg
  split at hg
  · next h heq => exact srcsetEntry_eq_rebuild base p h heq
  · simp at hg

/-- The components of `goodAbs`. -/
theorem goodAbs_dest (o : Option (List Char)) (hg : goodAbs o = true) :
    ∃ h, o = some h ∧ h ≠ [] ∧ (∀ c ∈ h, isWsChar c = false) ∧ ',' ∉ h := by
  cases o with
  | none => simp [goodAbs] at hg
  | some h =>
    simp only [goodAbs] at hg
    rw [Bool.and_eq_true] at hg
    refine ⟨h, rfl, by simpa using hg.1, ?_, ?_⟩
    · intro c hc
      have := List.all_eq_true.mp hg.2 c hc
      simp only [Bool.and_eq_true, Bool.not_eq_true'] at this
      exact this.1
    · intro hm
      have := List.all_eq_true.mp hg.2 ',' hm
      simp at this

/-! ## C3 — srcset entry preservation -/

/-- C3 counterexample: an entry whose URL is rejected (`mailto:`) is
dropped, so the rewritten srcset has fewer comma-separated entries than
the original. -/
theorem srcset_entries_counterexample :
    (splitCommaL "a.png 1x, mailto:b 2x".data).length = 2 ∧
      (splitCommaL (srcsetTransformL "https://e.com/" "a.png 1x, mailto:b 2x".data)).length = 1 := by
  decide

/-- C3 amended: when every trimmed nonempty entry's URL is accepted by
`toAbsolute` (resolving to a nonempty whitespace- and comma-free URL),
the rewrite preserves the entry count, reproduces each entry's first
descriptor token verbatim, and changes only the URL portion (to its
resolution); entries whose URL is rejected are dropped. -/
theorem srcset_entries_preserved : ∀ (base : String) (v : List Char),
    srcsetPartsL v ≠ [] →
    (∀ p ∈ srcsetPartsL v, goodAbs (toAbsoluteL base (wsSplit2 p).1) = true) →
    ((splitCommaL (srcsetTransformL base v)).map jsTrimL).length =
        (srcsetPartsL v).length ∧
      (((splitCommaL (srcsetTransformL base v)).map jsTrimL).map
          (fun q => (wsSplit2 q).2) =
        (srcsetPartsL v).map (fun p => (wsSplit2 p).2)) ∧
      (((splitCommaL (srcsetTransformL base v)).map jsTrimL).map
          (fun q => (wsSplit2 q).1) =
        (srcsetPartsL v).map (fun p => (toAbsoluteL base (wsSplit2 p).1).getD [])) := by
  intro base v hne hall
  have hclean : ∀ q ∈ (srcsetPartsL v).map (rebuildEntry base),
      q ≠ [] ∧ ',' ∉ q ∧ jsTrimL q = q := by
    intro q hq
    rw [List.mem_map] at hq
    obtain ⟨p, hp, rfl⟩ := hq
    obtain ⟨h, heq, hhne, hws, hcomma⟩ := goodAbs_dest _ (hall p hp)
    exact rebuildEntry_clean base v p h hp heq hws hcomma
  have hkey : (splitCommaL (srcsetTransformL base v)).map jsTrimL =
      (srcsetPartsL v).map (rebuildEntry base) := by
    rw [srcsetTransform_rebuild base v hall]
    rcases hm : (srcsetPartsL v).map (rebuildEntry base) with _ | ⟨q, qs⟩
    · rw [List.map_eq_nil_iff] at hm
      exact absurd hm hne
    · rw [← hm]
      rw [hm]
      exact splitCommaL_join_trim qs q (by rw [← hm]; exact hclean)
  refine ⟨?_, ?_, ?_⟩
  · rw [hkey, List.length_map]
  · rw [hkey, List.map_map]
    apply List.map_congr_left
    intro p hp
    obtain ⟨h, heq, hhne, hws, hcomma⟩ := goodAbs_dest _ (hall p hp)
    show (wsSplit2 (rebuildEntry base p)).2 = (wsSplit2 p).2
    rw [rebuildEntry_split base p h heq hws]
  · rw [hkey, List.map_map]
    apply List.map_congr_left
    intro p hp
    obtain ⟨h, heq, hhne, hws, hcomma⟩ := goodAbs_dest _ (hall p hp)
    show (wsSplit2 (rebuildEntry base p)).1 = (toAbsoluteL base (wsSplit2 p).1).getD []
    rw [rebuildEntry_split base p h heq hws, heq]
    rfl

/-- Witness for the amended C3 at a concrete two-entry srcset. -/
theorem srcset_entries_preserved_witness :
    ((splitCommaL (srcsetTransformL "https://e.com/" "a.png 1x, b.png 2x".data)).map
        jsTrimL).length = (srcsetPartsL "a.png 1x, b.png 2x".data).length :=
  (srcset_entries_preserved "https://e.com/" "a.png 1x, b.png 2x".data
    (by decide) (by decide)).1

/-- Members of the srcset transform output are clean and are fixpoints
of `srcsetEntry` (only whitespace/comma-freedom of the accepted URLs is
assumed). -/
theorem srcsetTransform_mem (base : String) (v : List Char)
    (hsafe : ∀ p ∈ srcsetPartsL v,
      (match toAbsoluteL base (wsSplit2 p).1 with
       | some h => h.all (fun c => !isWsChar c && !(c = ','))
       | none => true) = true) :
    ∀ q ∈ (srcsetPartsL v).filterMap (srcsetEntry base),
      (q ≠ [] ∧ ',' ∉ q ∧ jsTrimL q = q) ∧ srcsetEntry base q = some q := by
  intro q hq
  rw [List.mem_filterMap] at hq
  obtain ⟨p, hp, hpe⟩ := hq
  rcases habs : toAbsoluteL base (wsSplit2 p).1 with _ | h
  · unfold srcsetEntry at hpe
    rw [habs] at hpe
    simp at hpe
  · have hsp := hsafe p hp
    rw [habs] at hsp
    have hws : ∀ c ∈ h, isWsChar c = false := by
      intro c hc
      have := List.all_eq_true.mp hsp c hc
      simp only [Bool.and_eq_true, Bool.not_eq_true'] at this
      exact this.1
    have hcomma : ',' ∉ h := by
      intro hm
      have := List.all_eq_true.mp hsp ',' hm
      simp at this
    have hfix := toAbsolute_fixpoint base _ h habs
    have hq' : q = rebuildEntry base p := by
      rw [srcsetEntry_eq_rebuild base p h habs] at hpe
      injection hpe with hpe
      exact hpe.symm
    subst hq'
    refine ⟨rebuildEntry_clean base v p h hp habs hws hcomma, ?_⟩
    unfold srcsetEntry
    rw [rebuildEntry_split base p h habs hws]
    show (match toAbsoluteL base h with
      | none => none
      | some abs => some (match (wsSplit2 p).2 with
          | some d => abs ++ ' ' :: d
          | none => abs)) = some (rebuildEntry base p)
    rw [hfix]
    unfold rebuildEntry
    rw [habs]
    cases (wsSplit2 p).2 <;> rfl

/-- `applySrcset` is idempotent when every accepted entry URL is
whitespace- and comma-free. -/
theorem applySrcset_idem (base v : String) (hsafe : safeValB base v = true) :
    applySrcset base (applySrcset base v) = applySrcset base v := by
  have hsafe' : ∀ p ∈ srcsetPartsL v.data,
      (match toAbsoluteL base (wsSplit2 p).1 with
       | some h => h.all (fun c => !isWsChar c && !(c = ','))
       | none => true) = true := fun p hp => List.all_eq_true.mp hsafe p hp
  by_cases hv : v.data = []
  · have h1 : applySrcset base v = v := by
      unfold applySrcset
      rw [if_pos hv]
    rw [h1, h1]
  · by_cases hnv : srcsetTransformL base v.data = []
    · have h1 : applySrcset base v = v := by
        unfold applySrcset
        rw [if_neg hv, if_pos hnv]
      rw [h1, h1]
    · have h1 : applySrcset base v = ⟨srcsetTransformL base v.data⟩ := by
        unfold applySrcset
        rw [if_neg hv, if_neg hnv]
      rcases hqs : (srcsetPartsL v.data).filterMap (srcsetEntry base) with _ | ⟨q, qs⟩
      · exfalso
        apply hnv
        unfold srcsetTransformL
        rw [hqs]
        rfl
      · have hmem := srcsetTransform_mem base v.data hsafe'
        rw [hqs] at hmem
        have hclean : ∀ x ∈ q :: qs, x ≠ [] ∧ ',' ∉ x ∧ jsTrimL x = x :=
          fun x hx => (hmem x hx).1
        have hfix : ∀ x ∈ q :: qs, srcsetEntry base x = some x :=
          fun x hx => (hmem x hx).2
        have htrans : srcsetTransformL base v.data = joinCommaSpace (q :: qs) := by
          unfold srcsetTransformL
          rw [hqs]
        have htrans2 : srcsetTransformL base (srcsetTransformL base v.data) =
            srcsetTransformL base v.data := by
          conv_lhs => rw [htrans]
          unfold srcsetTransformL
          rw [srcsetPartsL_join qs q hclean]
          rw [filterMap_eq_map_of_some (srcsetEntry base) id (q :: qs)
            (fun x hx => by rw [hfix x hx]; rfl)]
          rw [List.map_id, hqs]
        rw [h1]
        show (if srcsetTransformL base v.data = []
            then (⟨srcsetTransformL base v.data⟩ : String)
            else if srcsetTransformL base (srcsetTransformL base v.data) = []
            then (⟨srcsetTransformL base v.data⟩ : String)
            else ⟨srcsetTransformL base (srcsetTransformL base v.data)⟩) =
          ⟨srcsetTransformL base v.data⟩
        rw [htrans2, if_neg hnv, if_neg hnv]

/-- `rewriteAttr` is idempotent (srcset attributes under `safeValB`). -/
theorem rewriteAttr_idem (base tag : String) (p : String × String)
    (hsafe : p.1 = "srcset" → srcsetTags.contains tag = true →
      safeValB base p.2 = true) :
    rewriteAttr base tag (rewriteAttr base tag p) = rewriteAttr base tag p := by
  by_cases h1 : (p.1 = "href" && hrefTags.contains tag) = true
  · have e1 : rewriteAttr base tag p = (p.1, applyAbs base p.2) := by
      unfold rewriteAttr
      rw [if_pos h1]
    rw [e1]
    unfold rewriteAttr
    rw [if_pos h1]
    show (p.1, applyAbs base (applyAbs base p.2)) = (p.1, applyAbs base p.2)
    rw [applyAbs_idem]
  · by_cases h2 : (p.1 = "src" && srcTags.contains tag) = true
    · have e1 : rewriteAttr base tag p = (p.1, applyAbs base p.2) := by
        unfold rewriteAttr
        rw [if_neg h1, if_pos h2]
      rw [e1]
      unfold rewriteAttr
      rw [if_neg h1, if_pos h2]
      show (p.1, applyAbs base (applyAbs base p.2)) = (p.1, applyAbs base p.2)
      rw [applyAbs_idem]
    · by_cases h3 : (p.1 = "srcset" && srcsetTags.contains tag) = true
      · have h3' := h3
        rw [Bool.and_eq_true, decide_eq_true_eq] at h3'
        have e1 : rewriteAttr base tag p = (p.1, applySrcset base p.2) := by
          unfold rewriteAttr
          rw [if_neg h1, if_neg h2, if_pos h3]
        rw [e1]
        unfold rewriteAttr
        rw [if_neg h1, if_neg h2, if_pos h3]
        show (p.1, applySrcset base (applySrcset base p.2)) =
          (p.1, applySrcset base p.2)
        rw [applySrcset_idem base p.2 (hsafe h3'.1 h3'.2)]
      · have e1 : rewriteAttr base tag p = p := by
          unfold rewriteAttr
          rw [if_neg h1, if_neg h2, if_neg h3]
        rw [e1]
        exact e1

/-- `rewriteAttr` leaves class attributes unchanged. -/
theorem rewriteAttr_class_pair (base tag : String) (pr : String × String)
    (h : pr.1 = "class") : rewriteAttr base tag pr = pr := by
  unfold rewriteAttr
  rw [if_neg (by simp [h]), if_neg (by simp [h]), if_neg (by simp [h])]

/-- Attribute rewriting does not change the class attribute. -/
theorem getAttr_map_class (base tag : String) :
    ∀ attrs : List (String × String),
      getAttr (attrs.map (rewriteAttr base tag)) "class" = getAttr attrs "class" := by
  intro attrs
  induction attrs with
  | nil => rfl
  | cons pr ps ih =>
    rw [List.map_cons]
    by_cases hc : pr.1 = "class"
    · unfold getAttr
      rw [List.find?_cons_of_pos _ (by simp [rewriteAttr_fst, hc]),
        List.find?_cons_of_pos _ (by simp [hc])]
      rw [rewriteAttr_class_pair base tag pr hc]
    · unfold getAttr
      rw [List.find?_cons_of_neg _ (by simp [rewriteAttr_fst, hc]),
        List.find?_cons_of_neg _ (by simp [hc])]
      exact ih

/-- Attribute rewriting does not change noise classification. -/
theorem isNoise_map (base tag : String) (attrs : List (String × String)) :
    isNoise tag (attrs.map (rewriteAttr base tag)) = isNoise tag attrs := by
  unfold isNoise
  rw [getAttr_map_class]

/-- Destructuring of `treeSafeB` at an element. -/
theorem treeSafeB_elem (base tag : String) (attrs : List (String × String))
    (children rest : HTree) (h : treeSafeB base (.elem tag attrs children rest) = true) :
    (∀ pr ∈ attrs, pr.1 = "srcset" → srcsetTags.contains tag = true →
      safeValB base pr.2 = true) ∧
    treeSafeB base children = true ∧ treeSafeB base rest = true := by
  unfold treeSafeB at h
  rw [Bool.and_eq_true, Bool.and_eq_true] at h
  refine ⟨?_, h.1.2, h.2⟩
  intro pr hpr hname hcont
  have := List.all_eq_true.mp h.1.1 pr hpr
  simp only [hname, hcont, Bool.or_eq_true, Bool.not_eq_true'] at this
  rcases this with hfalse | hok
  · simp at hfalse
  · exact hok

/-! ## C8 — idempotence of the Content Normalizer -/

/-- C8 counterexample: with a base URL whose directory contains a comma,
the rewritten srcset URL contains a comma, and the second pass re-splits
it into two entries — normalization is not idempotent in general. -/
theorem normalize_idempotent_counterexample :
    normalizeHtmlForMarkdown commaBase (normalizeHtmlForMarkdown commaBase commaDoc) ≠
      normalizeHtmlForMarkdown commaBase commaDoc := by
  decide

/-- C8 amended: the Content Normalizer is idempotent on every document
whose accepted srcset-entry URLs resolve without whitespace or comma
characters (true of real URLs whenever the base URL's path is
comma-free): denylisted elements never survive the first pass, href/src
rewriting is unconditionally idempotent, and srcset rewriting is
idempotent under that proviso. -/
theorem normalize_idempotent : ∀ (base : String) (f : HTree),
    treeSafeB base f = true →
    normalizeHtmlForMarkdown base (normalizeHtmlForMarkdown base f) =
      normalizeHtmlForMarkdown base f := by
  intro base f
  induction f with
  | nil => intro; rfl
  | text s rest ih =>
    intro h
    show HTree.text s (normalizeHtmlForMarkdown base
      (normalizeHtmlForMarkdown base rest)) = _
    rw [ih h]
    rfl
  | elem tag attrs children rest ihc ihr =>
    intro h
    obtain ⟨hattrs, hch, hrest⟩ := treeSafeB_elem base tag attrs children rest h
    by_cases hn : isNoise tag attrs = true
    · have e1 : normalizeHtmlForMarkdown base (.elem tag attrs children rest) =
          normalizeHtmlForMarkdown base rest := by
        conv_lhs => rw [normalizeHtmlForMarkdown]
        rw [if_pos hn]
      rw [e1]
      exact ihr hrest
    · have hn' : isNoise tag attrs = false := by
        cases hni : isNoise tag attrs
        · rfl
        · exact absurd hni hn
      have e1 : normalizeHtmlForMarkdown base (.elem tag attrs children rest) =
          .elem tag (attrs.map (rewriteAttr base tag))
            (normalizeHtmlForMarkdown base children)
            (normalizeHtmlForMarkdown base rest) := by
        conv_lhs => rw [normalizeHtmlForMarkdown]
        rw [if_neg hn]
      rw [e1]
      have e2 : normalizeHtmlForMarkdown base
          (.elem tag (attrs.map (rewriteAttr base tag))
            (normalizeHtmlForMarkdown base children)
            (normalizeHtmlForMarkdown base rest)) =
          .elem tag ((attrs.map (rewriteAttr base tag)).map (rewriteAttr base tag))
            (normalizeHtmlForMarkdown base (normalizeHtmlForMarkdown base children))
            (normalizeHtmlForMarkdown base (normalizeHtmlForMarkdown base rest)) := by
        conv_lhs => rw [normalizeHtmlForMarkdown]
        rw [if_neg (by rw [isNoise_map, hn']; simp)]
      have hmapidem : (attrs.map (rewriteAttr base tag)).map (rewriteAttr base tag) =
          attrs.map (rewriteAttr base tag) := by
        rw [List.map_map]
        apply List.map_congr_left
        intro pr hpr
        exact rewriteAttr_idem base tag pr
          (fun hname hcont => hattrs pr hpr hname hcont)
      rw [e2, ihc hch, ihr hrest, hmapidem]

/-- Witness for the amended C8 at a concrete document. -/
theorem normalize_idempotent_witness :
    normalizeHtmlForMarkdown "https://e.com/"
        (normalizeHtmlForMarkdown "https://e.com/"
          (.elem "img" [("srcset", "a.png 1x, b.png 2x")] .nil
            (.elem "a" [("href", "p.html")] (.text "link" .nil) .nil))) =
      normalizeHtmlForMarkdown "https://e.com/"
        (.elem "img" [("srcset", "a.png 1x, b.png 2x")] .nil
          (.elem "a" [("href", "p.html")] (.text "link" .nil) .nil)) :=
  normalize_idempotent "https://e.com/" _ (by decide)
